import Mathlib

/-
Verification of the local-filesystem storage backend (pkg/storage/local.go).

Go strings are byte sequences; paths in this backend are Unix slash-separated
strings.  We model them as lists of characters (`GoStr`); the path keys the
claims talk about are ASCII, where Go bytes and characters coincide.

The first part of this file embeds the Go standard-library path functions the
source uses (`filepath.Clean`, `filepath.Join`, `path.Join`, `filepath.Base`,
`filepath.Dir`, `filepath.Rel`, `strings.HasPrefix`), specialised to Unix
(`filepath.Separator` = '/', no volume names), following the algorithms of
Go's `path/filepath` package.
-/

abbrev GoStr := List Char

def gs (s : String) : GoStr := s.data

/-- The path element ".". -/
def dotSeg : GoStr := ['.']

/-- The path element "..". -/
def dotdotSeg : GoStr := ['.', '.']

/-- Split a path on '/' keeping empty fields, like strings.Split(p, "/"). -/
def splitSlash : GoStr → List GoStr
  | [] => [[]]
  | c :: rest =>
    let r := splitSlash rest
    if c = '/' then [] :: r
    else
      match r with
      | s :: ss => (c :: s) :: ss
      | [] => [[c]]

/-- The element-processing loop of Go's path.Clean / filepath.Clean (Unix):
empty and "." elements are dropped; ".." pops a previous element when one is
available, is dropped at the root of a rooted path, and is kept otherwise.
The accumulator holds the output elements in reverse order. -/
def cleanStack (rooted : Bool) : List GoStr → List GoStr → List GoStr
  | [], stack => stack
  | s :: rest, stack =>
    if s = [] ∨ s = dotSeg then cleanStack rooted rest stack
    else if s = dotdotSeg then
      match stack with
      | [] => if rooted then cleanStack rooted rest [] else cleanStack rooted rest [dotdotSeg]
      | t :: stack' =>
        if t = dotdotSeg then cleanStack rooted rest (dotdotSeg :: t :: stack')
        else cleanStack rooted rest stack'
    else cleanStack rooted rest (s :: stack)

/-- Join path elements with '/' (string assembly of Clean, Rel). -/
def joinSegs : List GoStr → GoStr
  | [] => []
  | [s] => s
  | s :: rest :: more => s ++ '/' :: joinSegs (rest :: more)

/-- Reassemble a cleaned path from its rootedness and its elements. -/
def render (rooted : Bool) (segs : List GoStr) : GoStr :=
  let body := joinSegs segs
  if rooted then '/' :: body
  else if body = [] then dotSeg else body

/-- Go filepath.Clean on Unix: canonicalise a slash-separated path. -/
def goClean (p : GoStr) : GoStr :=
  if p = [] then dotSeg
  else
    let rooted := p.head? = some '/'
    render rooted (cleanStack rooted (splitSlash p) []).reverse

/-- Go filepath.Join (= path.Join on Unix) on two elements: join the
non-empty elements with '/' and Clean the result. -/
def goJoin (a b : GoStr) : GoStr :=
  if a = [] ∧ b = [] then []
  else if a = [] then goClean b
  else if b = [] then goClean a
  else goClean (a ++ '/' :: b)

/-- Go strings.HasPrefix. -/
def goHasPrefix (s pre : GoStr) : Bool := pre.isPrefixOf s

/-- Go filepath.Base on Unix: strip trailing slashes, then take everything
after the final slash. -/
def goBase (p : GoStr) : GoStr :=
  if p = [] then dotSeg
  else
    let q := (p.reverse.dropWhile (· = '/')).reverse
    if q = [] then ['/']
    else (splitSlash q).getLastD []

/-- Go filepath.Dir on Unix: everything up to and including the final slash,
cleaned. -/
def goDir (p : GoStr) : GoStr :=
  goClean ((p.reverse.dropWhile (· ≠ '/')).reverse)

/-- Drop the longest common leading run of two element lists, returning the
two remainders (the segment comparison loop of Go filepath.Rel). -/
def dropCommon : List GoStr → List GoStr → List GoStr × List GoStr
  | [], ts => ([], ts)
  | bs, [] => (bs, [])
  | b :: bs, t :: ts => if b = t then dropCommon bs ts else (b :: bs, t :: ts)

/-- Errors of the backend, covering the Go error values the source
distinguishes (storage.ErrNotFound, the path-escape error of containedPath)
and the OS error codes the model can produce.  `errNotFound` is the
distinguished sentinel storage.ErrNotFound; `enoent` is a raw OS
"does not exist" error (os.IsNotExist holds of it). -/
inductive StorageError where
  | pathEscape (key basePath : GoStr)
  | errNotFound
  | enoent
  | enotdir
  | eisdir
  | eexist
  | einval
  | eperm
  | relError
  | readerError
  | mkdirError
  | createError
deriving Repr, DecidableEq

instance {ε α : Type} [DecidableEq ε] [DecidableEq α] : DecidableEq (Except ε α) := fun a b =>
  match a, b with
  | .ok x, .ok y => if h : x = y then .isTrue (by rw [h]) else .isFalse (by simp [h])
  | .error x, .error y => if h : x = y then .isTrue (by rw [h]) else .isFalse (by simp [h])
  | .ok _, .error _ => .isFalse (by simp)
  | .error _, .ok _ => .isFalse (by simp)

/-- Go filepath.Rel on Unix (no volume names): express targ relative to base,
at the granularity of path elements. -/
def goRel (basep targp : GoStr) : Except StorageError GoStr :=
  let base := goClean basep
  let targ := goClean targp
  if targ = base then .ok dotSeg
  else
    let base := if base = dotSeg then [] else base
    if (base.head? = some '/') ≠ (targ.head? = some '/') then .error .relError
    else
      let bs := (splitSlash base).filter (· ≠ [])
      let ts := (splitSlash targ).filter (· ≠ [])
      let rest := dropCommon bs ts
      if rest.1.contains dotdotSeg then .error .relError
      else .ok (joinSegs (rest.1.map (fun _ => dotdotSeg) ++ rest.2))

/-- containedPath from local.go: join basePath and key, then validate that
the result is within basePath; return the cleaned path or a path-escape
error. -/
def containedPath (basePath key : GoStr) : Except StorageError GoStr :=
  let joined := goClean (goJoin basePath key)
  let base := goClean basePath
  if ¬ goHasPrefix joined (base ++ ['/']) ∧ joined ≠ base
  then .error (.pathEscape key basePath)
  else .ok joined

/-- A path element is in canonical form when it is non-empty, contains no
separator, and is not ".". -/
def CleanSeg (s : GoStr) : Prop := s ≠ [] ∧ '/' ∉ s ∧ s ≠ dotSeg

/-- Whether a path (in particular a cleaned one) is absolute. -/
def isRooted (p : GoStr) : Bool := p.head? = some '/'

/-- The elements of a cleaned path ("." denotes the relative root and has no
elements). -/
def segsOfClean (p : GoStr) : List GoStr :=
  if p = dotSeg then [] else (splitSlash p).filter (fun s => ¬ s = [])

/-- Following the spec's words: a cleaned path is a strict descendant of a
cleaned base directory when they agree on absoluteness and the base's
element sequence is a proper leading subsequence of the path's. -/
def specStrictDesc (base p : GoStr) : Bool :=
  (isRooted p == isRooted base)
    && (segsOfClean base).isPrefixOf (segsOfClean p)
    && decide ((segsOfClean base).length < (segsOfClean p).length)

/-
Filesystem model.  The backend performs direct POSIX filesystem calls; we
model the filesystem as a tree of named nodes (regular files with byte
contents, directories with an entry list), rooted at "/", together with a
current working directory (relative paths are resolved against it) and a
flag saying whether hardlinks between the trees are possible (os.Link fails
across filesystems).  Symbolic links, permissions and modification times are
not modelled; file sizes are byte counts, directory stat sizes are
filesystem-dependent and modelled as 0.
-/

inductive Node where
  | file (content : List Nat)
  | dir (entries : List (GoStr × Node))

mutual
def Node.sz : Node → Nat
  | .file _ => 1
  | .dir es => 1 + szEntries es
def szEntries : List (GoStr × Node) → Nat
  | [] => 0
  | (_, c) :: es => c.sz + szEntries es
end

structure Fs where
  root : Node
  cwd : List GoStr
  linkOk : Bool

/-- The stat size of a node: byte count for regular files; directory sizes
are filesystem-dependent and modelled as 0. -/
def nodeSize : Node → Nat
  | .file c => c.length
  | .dir _ => 0

def findEntry (es : List (GoStr × Node)) (name : GoStr) : Option Node :=
  (es.find? (fun e => e.1 = name)).map (·.2)

def setEntry (es : List (GoStr × Node)) (name : GoStr) (c : Node) : List (GoStr × Node) :=
  es.map (fun e => if e.1 = name then (name, c) else e)

/-- Resolve a path to absolute element form: absolute paths from the root,
relative paths against the current working directory, with "." and ".."
resolved (POSIX resolution, no symlinks). -/
def absSegs (fs : Fs) (p : GoStr) : List GoStr :=
  if p.head? = some '/' then (cleanStack true (splitSlash p) []).reverse
  else (cleanStack true (fs.cwd ++ splitSlash p) []).reverse

inductive Lk where
  | found (n : Node)
  | enoent
  | enotdir

/-- Walk the tree along the given elements: the node there, ENOENT when an
element is missing, ENOTDIR when a non-final element is a regular file. -/
def lookupNode : List GoStr → Node → Lk
  | [], n => .found n
  | _ :: _, .file _ => .enotdir
  | s :: rest, .dir es =>
    match findEntry es s with
    | none => .enoent
    | some c => lookupNode rest c

/-- os.MkdirAll: create every missing directory of the chain; fails when an
existing element of the chain is a regular file. -/
def mkdirAllNode : List GoStr → Node → Option Node
  | [], .dir es => some (.dir es)
  | [], .file _ => none
  | s :: rest, .dir es =>
    match findEntry es s with
    | some c => (mkdirAllNode rest c).map (fun c' => Node.dir (setEntry es s c'))
    | none => (mkdirAllNode rest (.dir [])).map (fun c' => Node.dir (es ++ [(s, c')]))
  | _ :: _, .file _ => none

/-- os.Create followed by writing the given bytes: create or truncate the
regular file at the path; fails when the target is a directory or the parent
chain does not lead to an existing directory. -/
def createWriteNode : List GoStr → List Nat → Node → Option Node
  | [], _, _ => none
  | [s], content, .dir es =>
    match findEntry es s with
    | some (.dir _) => none
    | some (.file _) => some (.dir (setEntry es s (.file content)))
    | none => some (.dir (es ++ [(s, .file content)]))
  | s :: rest :: more, content, .dir es =>
    match findEntry es s with
    | some c => (createWriteNode (rest :: more) content c).map (fun c' => Node.dir (setEntry es s c'))
    | none => none
  | _ :: _, _, .file _ => none

/-- os.Remove: unlink the regular file (or empty directory) at the path. -/
def removeNode : List GoStr → Node → Option Node
  | [], _ => none
  | [s], .dir es =>
    match findEntry es s with
    | some (.file _) => some (.dir (es.filter (fun e => ¬ e.1 = s)))
    | some (.dir []) => some (.dir (es.filter (fun e => ¬ e.1 = s)))
    | some (.dir (_ :: _)) => none
    | none => none
  | s :: rest :: more, .dir es =>
    match findEntry es s with
    | some c => (removeNode (rest :: more) c).map (fun c' => Node.dir (setEntry es s c'))
    | none => none
  | _ :: _, .file _ => none

/-- Remove the subtree at the path (the deletion step of os.RemoveAll);
total: removing a missing entry changes nothing. -/
def deleteAtNode : List GoStr → Node → Node
  | [], n => n
  | [s], .dir es => .dir (es.filter (fun e => ¬ e.1 = s))
  | s :: rest :: more, .dir es =>
    match findEntry es s with
    | some c => .dir (setEntry es s (deleteAtNode (rest :: more) c))
    | none => .dir es
  | _ :: _, .file c => .file c

/-- os.Stat (= lstat in this symlink-free model). -/
def osStat (fs : Fs) (p : GoStr) : Except StorageError Node :=
  if p = [] then .error .enoent
  else
    match lookupNode (absSegs fs p) fs.root with
    | .found n => .ok n
    | .enoent => .error .enoent
    | .enotdir => .error .enotdir

/-- os.Open: opening succeeds for files and directories alike. -/
def osOpen (fs : Fs) (p : GoStr) : Except StorageError Node := osStat fs p

/-- The check of Go's os.RemoveAll that refuses paths whose final element is
".". -/
def endsWithDot (p : GoStr) : Bool :=
  if p = dotSeg then true
  else
    match p.reverse with
    | '.' :: '/' :: _ => true
    | _ => false

/-- os.RemoveAll: empty path is a no-op success; a path ending in "." is
EINVAL; a missing target is a no-op success; a parent chain through a
regular file is ENOTDIR; otherwise the subtree is removed.  Removing "/"
itself fails (the root directory cannot be unlinked). -/
def removeAllFs (fs : Fs) (p : GoStr) : Fs × Except StorageError Unit :=
  if p = [] then (fs, .ok ())
  else if endsWithDot p then (fs, .error .einval)
  else
    match absSegs fs p with
    | [] => (fs, .error .eperm)
    | s :: rest =>
      match lookupNode (s :: rest) fs.root with
      | .enotdir => (fs, .error .enotdir)
      | .enoent => (fs, .ok ())
      | .found _ => ({ fs with root := deleteAtNode (s :: rest) fs.root }, .ok ())

/-- os.Link src dst: succeeds when hardlinks are possible here, src is an
existing regular file and dst does not yet exist and its parent directory
does; the new name shares the file's bytes (aliasing after later writes is
not modelled; no claim needs it). -/
def osLink (fs : Fs) (src dst : GoStr) : Except StorageError Fs :=
  if ¬ fs.linkOk then .error .eperm
  else if src = [] ∨ dst = [] then .error .enoent
  else
    match lookupNode (absSegs fs src) fs.root with
    | .enoent => .error .enoent
    | .enotdir => .error .enotdir
    | .found (.dir _) => .error .eperm
    | .found (.file c) =>
      match lookupNode (absSegs fs dst) fs.root with
      | .found _ => .error .eexist
      | .enotdir => .error .enotdir
      | .enoent =>
        match createWriteNode (absSegs fs dst) c fs.root with
        | none => .error .enoent
        | some root' => .ok { fs with root := root' }

/-- Go byte-wise lexicographic string order (the order sort.Strings and
os.ReadDir use for filenames). -/
def strLe : GoStr → GoStr → Bool
  | [], _ => true
  | _ :: _, [] => false
  | a :: as, b :: bs => if a = b then strLe as bs else decide (a < b)

def insertSorted (x : GoStr) : List GoStr → List GoStr
  | [] => [x]
  | y :: ys => if strLe x y then x :: y :: ys else y :: insertSorted x ys

/-- Directory listings (os.ReadDir, filepath.Walk's readDirNames) return
names sorted ascending. -/
def sortNames (l : List GoStr) : List GoStr := l.foldr insertSorted []

/-- os.ReadDir: the directory's entries sorted by name. -/
def osReadDir (fs : Fs) (p : GoStr) : Except StorageError (List (GoStr × Node)) :=
  if p = [] then .error .enoent
  else
    match lookupNode (absSegs fs p) fs.root with
    | .found (.dir es) =>
      .ok ((sortNames (es.map Prod.fst)).filterMap (fun nm => (findEntry es nm).map (fun c => (nm, c))))
    | .found (.file _) => .error .enotdir
    | .enoent => .error .enoent
    | .enotdir => .error .enotdir

/-
The backend (struct Local of local.go).  Operations that mutate the
filesystem are modelled in state-passing style (they return the new
filesystem next to the Go function's return value); read-only operations
return only the Go result.  Config.Debug only toggles logging and is
omitted.  The context argument is omitted: the only operation that consults
it is the batch delete's per-key cancellation poll, and the claims are about
runs in which cancellation never fires.
-/

structure LocalConfig where
  path : GoStr
  objectDiskPath : GoStr

/-- localFile, the RemoteFile implementation: a point-in-time descriptor
(modification time is wall-clock state and not modelled). -/
structure LocalFile where
  size : Nat
  name : GoStr
deriving Repr, DecidableEq

/-- An io.ReadCloser for PutFile: the byte sequence it produces before
either reporting EOF (fails = false) or failing mid-stream (fails = true). -/
structure GoReader where
  bytes : List Nat
  fails : Bool

/-- StatFileAbsolute: os.Stat; "does not exist" becomes the distinguished
ErrNotFound, any other error is propagated unchanged; on success the
descriptor's name is filepath.Base of the statted path. -/
def statFileAbsolute (fs : Fs) (key : GoStr) : Except StorageError LocalFile :=
  match osStat fs key with
  | .error .enoent => .error .errNotFound
  | .error e => .error e
  | .ok n => .ok { size := nodeSize n, name := goBase key }

def statFile (fs : Fs) (cfg : LocalConfig) (key : GoStr) : Except StorageError LocalFile :=
  match containedPath cfg.path key with
  | .error e => .error e
  | .ok absPath => statFileAbsolute fs absPath

def deleteFile (fs : Fs) (cfg : LocalConfig) (key : GoStr) : Fs × Except StorageError Unit :=
  match containedPath cfg.path key with
  | .error e => (fs, .error e)
  | .ok absPath => removeAllFs fs absPath

def deleteFileFromObjectDiskBackup (fs : Fs) (cfg : LocalConfig) (key : GoStr) :
    Fs × Except StorageError Unit :=
  match containedPath cfg.objectDiskPath key with
  | .error e => (fs, .error e)
  | .ok absPath => removeAllFs fs absPath

/-- GetFileReaderAbsolute: os.Open and stream the bytes.  Opening a
directory succeeds at the OS level but reading from it fails; the model
folds that read failure into the open. -/
def getFileReaderAbsolute (fs : Fs) (key : GoStr) : Except StorageError (List Nat) :=
  match osOpen fs key with
  | .error e => .error e
  | .ok (.file c) => .ok c
  | .ok (.dir _) => .error .eisdir

def getFileReader (fs : Fs) (cfg : LocalConfig) (key : GoStr) : Except StorageError (List Nat) :=
  match containedPath cfg.path key with
  | .error e => .error e
  | .ok absPath => getFileReaderAbsolute fs absPath

/-- PutFileAbsolute: MkdirAll the parent, os.Create the destination, stream
the reader into it; on a copy error the partial file is os.Remove'd (a
failure of that removal is logged and ignored) and the copy error is
returned.  localSize is informational only and unused. -/
def putFileAbsolute (fs : Fs) (key : GoStr) (r : GoReader) : Fs × Except StorageError Unit :=
  match mkdirAllNode (absSegs fs (goDir key)) fs.root with
  | none => (fs, .error .mkdirError)
  | some root1 =>
    match createWriteNode (absSegs fs key) [] root1 with
    | none => ({ fs with root := root1 }, .error .createError)
    | some root2 =>
      if r.fails then
        ({ fs with root := (removeNode (absSegs fs key) root2).getD root2 }, .error .readerError)
      else
        match createWriteNode (absSegs fs key) r.bytes root2 with
        | none => ({ fs with root := root2 }, .error .createError)
        | some root3 => ({ fs with root := root3 }, .ok ())

def putFile (fs : Fs) (cfg : LocalConfig) (key : GoStr) (r : GoReader) :
    Fs × Except StorageError Unit :=
  match containedPath cfg.path key with
  | .error e => (fs, .error e)
  | .ok absPath => putFileAbsolute fs absPath r

/-- The recursive branch of WalkAbsolute: filepath.Walk with the callback of
local.go, which skips the root entry (relative name ".") and otherwise
passes a descriptor named by filepath.Rel(prefix, path) to the visitor.  The
model collects the descriptor sequence handed to the visitor; the source
short-circuits on a visitor error, which no claim exercises.  Fuel bounds
the recursion depth; Node.sz of the subtree always suffices. -/
def walkChildren (w : Node → GoStr → Except StorageError (List LocalFile))
    (f : GoStr → Option Node) (fPath : GoStr) :
    List GoStr → List LocalFile → Except StorageError (List LocalFile)
  | [], sofar => .ok sofar
  | nm :: rest, sofar =>
    match f nm with
    | none => walkChildren w f fPath rest sofar
    | some c =>
      match w c (goJoin fPath nm) with
      | .error e => .error e
      | .ok l => walkChildren w f fPath rest (sofar ++ l)

def walkRecF : Nat → GoStr → GoStr → Node → Except StorageError (List LocalFile)
  | 0, _, _, _ => .ok []
  | fuel+1, pfx, fPath, n =>
    match goRel pfx fPath with
    | .error e => .error e
    | .ok relName =>
      let here : List LocalFile :=
        if relName = dotSeg then [] else [{ size := nodeSize n, name := relName }]
      match n with
      | .file _ => .ok here
      | .dir es =>
        walkChildren (fun c p => walkRecF fuel pfx p c) (findEntry es) fPath
          (sortNames (es.map Prod.fst)) here

/-- WalkAbsolute.  Recursive mode: filepath.Walk; a missing root is
swallowed by the callback (IsNotExist → nil).  Non-recursive mode:
os.ReadDir; missing directory yields zero entries; each immediate child is
passed to the visitor under its base name. -/
def walkAbsolute (fs : Fs) (pfx : GoStr) (recursive : Bool) :
    Except StorageError (List LocalFile) :=
  if recursive then
    match osStat fs pfx with
    | .error .enoent => .ok []
    | .error e => .error e
    | .ok n => walkRecF n.sz pfx pfx n
  else
    match osReadDir fs pfx with
    | .error .enoent => .ok []
    | .error e => .error e
    | .ok entries => .ok (entries.map (fun e => { size := nodeSize e.2, name := e.1 }))

/-- Walk: the key-based enumeration joins the remote path onto the base with
path.Join (no containment check) and delegates to WalkAbsolute. -/
def walk (fs : Fs) (cfg : LocalConfig) (remotePath : GoStr) (recursive : Bool) :
    Except StorageError (List LocalFile) :=
  walkAbsolute fs (goJoin cfg.path remotePath) recursive

/-- CopyObject: prefix dstKey with ObjectDiskPath and srcKey with Path
(plain path.Join, no containment check), MkdirAll the destination's parent,
try a hardlink (reporting the caller-supplied srcSize on success), and on
any hardlink failure fall back to open/create/io.Copy, reporting the bytes
actually copied. -/
def copyObject (fs : Fs) (cfg : LocalConfig) (srcSize : Nat) (srcKey dstKey : GoStr) :
    Fs × Except StorageError Nat :=
  let dstPath := goJoin cfg.objectDiskPath dstKey
  let srcPath := goJoin cfg.path srcKey
  match mkdirAllNode (absSegs fs (goDir dstPath)) fs.root with
  | none => (fs, .error .mkdirError)
  | some root1 =>
    let fs1 : Fs := { fs with root := root1 }
    match osLink fs1 srcPath dstPath with
    | .ok fs2 => (fs2, .ok srcSize)
    | .error _ =>
      match osOpen fs1 srcPath with
      | .error e => (fs1, .error e)
      | .ok srcNode =>
        match createWriteNode (absSegs fs1 dstPath) [] fs1.root with
        | none => (fs1, .error .createError)
        | some root2 =>
          let fs2 : Fs := { fs1 with root := root2 }
          match srcNode with
          | .dir _ => (fs2, .error .eisdir)
          | .file content =>
            match createWriteNode (absSegs fs2 dstPath) content fs2.root with
            | none => (fs2, .error .createError)
            | some root3 => ({ fs2 with root := root3 }, .ok content.length)

/-- BatchDeleteError: the aggregate failure report of a batch delete; the
Message counts successes and failures, the Failures list pairs each failed
key with its cause. -/
structure BatchError where
  deleted : Nat
  failures : List (GoStr × StorageError)
deriving Repr, DecidableEq

/-- deleteKeysBatchInternal: resolve each key in input order through the
guard and os.RemoveAll it, recording either kind of failure and continuing;
success exactly when no failure occurred, otherwise the aggregate report.
(The per-key cancellation poll never fires in the runs modelled here.) -/
def batchStep (basePath : GoStr) (acc : Fs × List (GoStr × StorageError) × Nat)
    (key : GoStr) : Fs × List (GoStr × StorageError) × Nat :=
  match containedPath basePath key with
  | .error e => (acc.1, acc.2.1 ++ [(key, e)], acc.2.2)
  | .ok absPath =>
    match removeAllFs acc.1 absPath with
    | (fs', .error e) => (fs', acc.2.1 ++ [(key, e)], acc.2.2)
    | (fs', .ok _) => (fs', acc.2.1, acc.2.2 + 1)

def deleteKeysBatchInternal (fs : Fs) (basePath : GoStr) (keys : List GoStr) :
    Fs × Option BatchError :=
  let st := keys.foldl (batchStep basePath) (fs, [], 0)
  if st.2.1 = [] then (st.1, none)
  else (st.1, some { deleted := st.2.2, failures := st.2.1 })

def deleteKeysBatch (fs : Fs) (cfg : LocalConfig) (keys : List GoStr) : Fs × Option BatchError :=
  match keys with
  | [] => (fs, none)
  | _ :: _ => deleteKeysBatchInternal fs cfg.path keys

def deleteKeysFromObjectDiskBackupBatch (fs : Fs) (cfg : LocalConfig) (keys : List GoStr) :
    Fs × Option BatchError :=
  match keys with
  | [] => (fs, none)
  | _ :: _ => deleteKeysBatchInternal fs cfg.objectDiskPath keys

/-- Reference description of the batch delete loop, following the spec's
words: process the keys strictly in input order; each key is resolved
through the guard and removed; either kind of failure is recorded as a
(key, cause) pair and processing continues with the next key.  Returns the
final filesystem, the count of successful deletions and the ordered failure
list. -/
def batchSpecRun (basePath : GoStr) : Fs → List GoStr → Fs × Nat × List (GoStr × StorageError)
  | fs, [] => (fs, 0, [])
  | fs, k :: ks =>
    match containedPath basePath k with
    | .error e =>
      let r := batchSpecRun basePath fs ks
      (r.1, r.2.1, (k, e) :: r.2.2)
    | .ok p =>
      match removeAllFs fs p with
      | (fs1, .error e) =>
        let r := batchSpecRun basePath fs1 ks
        (r.1, r.2.1, (k, e) :: r.2.2)
      | (fs1, .ok _) =>
        let r := batchSpecRun basePath fs1 ks
        (r.1, r.2.1 + 1, r.2.2)

/-- The fallback branch of CopyObject (taken whenever the hardlink fails):
os.Open the source, os.Create the destination, io.Copy the bytes, return
the count actually copied. -/
def copyFallback (fs1 : Fs) (srcPath dstPath : GoStr) : Fs × Except StorageError Nat :=
  match osOpen fs1 srcPath with
  | .error e => (fs1, .error e)
  | .ok srcNode =>
    match createWriteNode (absSegs fs1 dstPath) [] fs1.root with
    | none => (fs1, .error .createError)
    | some root2 =>
      let fs2 : Fs := { fs1 with root := root2 }
      match srcNode with
      | .dir _ => (fs2, .error .eisdir)
      | .file content =>
        match createWriteNode (absSegs fs2 dstPath) content fs2.root with
        | none => (fs2, .error .createError)
        | some root3 => ({ fs2 with root := root3 }, .ok content.length)

/-- A well-formed directory entry name: non-empty, no separator, and not
one of the special elements "." and ".." (what a real directory listing can
contain). -/
def wfName (s : GoStr) : Bool :=
  decide (s ≠ []) && decide ('/' ∉ s) && decide (s ≠ dotSeg) && decide (s ≠ dotdotSeg)

mutual
def wfTree : Node → Bool
  | .file _ => true
  | .dir es => wfEntries es
def wfEntries : List (GoStr × Node) → Bool
  | [] => true
  | (nm, c) :: es => wfName nm && wfTree c && wfEntries es
end

/-- Specification-side listing of the strict descendants of a node, in
sorted depth-first order, each paired with its path relative to the node as
an element list.  Fuel bounds the depth; Node.sz always suffices. -/
def dfsEntriesF : Nat → Node → List (List GoStr × Node)
  | 0, _ => []
  | _+1, .file _ => []
  | fuel+1, .dir es =>
    (sortNames (es.map Prod.fst)).flatMap (fun nm =>
      match findEntry es nm with
      | none => []
      | some c => ([nm], c) :: (dfsEntriesF fuel c).map (fun e => (nm :: e.1, e.2)))

def dfsEntries (n : Node) : List (List GoStr × Node) := dfsEntriesF n.sz n

/-- A small concrete filesystem used by examples, witnesses and
counterexamples: /data/f.txt, /data/sub/g, /etc/passwd. -/
def fsA : Fs :=
  { root := .dir [
      (gs "data", .dir [
        (gs "f.txt", .file [1, 2, 3]),
        (gs "sub", .dir [(gs "g", .file [4])])]),
      (gs "etc", .dir [(gs "passwd", .file [9, 9])])],
    cwd := [],
    linkOk := true }

def cfgA : LocalConfig := { path := gs "/data", objectDiskPath := gs "/odp" }

/-- The filesystem root after CopyObject's MkdirAll has ensured /odp/cp
(used by the C6 witness). -/
def root1A : Node :=
  (mkdirAllNode (absSegs fsA (goDir (goJoin cfgA.objectDiskPath (gs "cp/f"))))
    fsA.root).getD fsA.root

def fsA1 : Fs := { fsA with root := root1A }

/-- The /data directory node of fsA (used by the C9 witness). -/
def dataNode : Node :=
  .dir [(gs "f.txt", .file [1, 2, 3]), (gs "sub", .dir [(gs "g", .file [4])])]

example : statFile fsA cfgA (gs "f.txt") = .ok { size := 3, name := gs "f.txt" } := by decide
example : statFile fsA cfgA (gs "nope") = .error .errNotFound := by decide
example : statFile fsA cfgA (gs "../etc/passwd") =
    .error (.pathEscape (gs "../etc/passwd") (gs "/data")) := by decide
example : walk fsA cfgA (gs "") true =
    .ok [{ size := 3, name := gs "f.txt" }, { size := 0, name := gs "sub" },
         { size := 1, name := gs "sub/g" }] := by decide
example : walk fsA cfgA (gs "../etc") false = .ok [{ size := 2, name := gs "passwd" }] := by
  decide
example : walk fsA cfgA (gs "missing") true = .ok [] := by decide
example :
    (putFile fsA cfgA (gs "x/y") { bytes := [7, 8], fails := false }).2 = .ok () := by decide
example :
    getFileReader (putFile fsA cfgA (gs "x/y") { bytes := [7, 8], fails := false }).1 cfgA
      (gs "x/y") = .ok [7, 8] := by decide
example :
    (putFile fsA cfgA (gs "x/y") { bytes := [7, 8], fails := true }).2 =
      .error .readerError := by decide
example :
    statFile (putFile fsA cfgA (gs "x/y") { bytes := [7, 8], fails := true }).1 cfgA
      (gs "x/y") = .error .errNotFound := by decide
example : (copyObject fsA cfgA 3 (gs "f.txt") (gs "cp/f")).2 = .ok 3 := by decide
example :
    (copyObject { fsA with linkOk := false } cfgA 77 (gs "f.txt") (gs "cp/f")).2 =
      .ok 3 := by decide
example :
    (deleteKeysBatchInternal fsA (gs "/data") [gs "f.txt", gs "../evil", gs "sub"]).2 =
      some { deleted := 2,
             failures := [(gs "../evil", .pathEscape (gs "../evil") (gs "/data"))] } := by
  decide
example :
    statFile (deleteKeysBatchInternal fsA (gs "/data")
        [gs "f.txt", gs "../evil", gs "sub"]).1 cfgA (gs "f.txt") =
      .error .errNotFound := by decide
example :
    statFile (deleteKeysBatchInternal fsA (gs "/data")
        [gs "f.txt", gs "../evil", gs "sub"]).1 cfgA (gs "sub") =
      .error .errNotFound := by decide
example : (deleteFile fsA cfgA (gs "nope")).2 = .ok () := by decide



example : goClean (gs "/a//b/./../c") = gs "/a/c" := by decide
example : specStrictDesc (gs "/data") (gs "/data/a") = true := by decide
example : specStrictDesc (gs "/data") (gs "/data") = false := by decide
example : specStrictDesc (gs "/data") (gs "/datax") = false := by decide
example : specStrictDesc (gs "/") (gs "/x") = true := by decide
example : specStrictDesc (gs ".") (gs "x") = true := by decide
example : goClean (gs "../../x") = gs "../../x" := by decide
example : goClean (gs "/../x") = gs "/x" := by decide
example : goClean (gs "") = gs "." := by decide
example : goClean (gs "/") = gs "/" := by decide
example : goClean (gs "a/..") = gs "." := by decide
example : goJoin (gs "/data") (gs "../etc/passwd") = gs "/etc/passwd" := by decide
example : goJoin (gs "/data") (gs "/etc/passwd") = gs "/data/etc/passwd" := by decide
example : goJoin (gs "") (gs "x") = gs "x" := by decide
example : goBase (gs "a/b.txt") = gs "b.txt" := by decide
example : goBase (gs "a/b/") = gs "b" := by decide
example : goBase (gs ".") = gs "." := by decide
example : goBase (gs "/") = gs "/" := by decide
example : goDir (gs "/a/b") = gs "/a" := by decide
example : goDir (gs "a") = gs "." := by decide
example : goDir (gs "/x") = gs "/" := by decide
example : goRel (gs "/data") (gs "/data/a/b") = .ok (gs "a/b") := by decide
example : goRel (gs "/data") (gs "/data") = .ok (gs ".") := by decide
example : goRel (gs "..") (gs "../n") = .ok (gs "n") := by decide
example : goRel (gs ".") (gs "x") = .ok (gs "x") := by decide
example : containedPath (gs "/data") (gs "a/b") = .ok (gs "/data/a/b") := by decide
example : containedPath (gs "/data") (gs "../evil") =
    .error (.pathEscape (gs "../evil") (gs "/data")) := by decide
example : containedPath (gs "/data") (gs "a/../../evil") =
    .error (.pathEscape (gs "a/../../evil") (gs "/data")) := by decide
example : containedPath (gs "/data") (gs ".") = .ok (gs "/data") := by decide
example : containedPath (gs "/") (gs "x") =
    .error (.pathEscape (gs "x") (gs "/")) := by decide
example : containedPath (gs "") (gs "x/..") = .ok (gs ".") := by decide

/-
Characterisation of cleaned paths: a goClean output is `render r segs` for
canonical elements `segs`, and on such paths the string-level prefix check
of containedPath coincides with element-level strict descent.
-/


theorem splitSlash_ne_nil : ∀ p : GoStr, splitSlash p ≠ []
  | [] => by simp [splitSlash]
  | c :: rest => by
    simp only [splitSlash]
    split
    · simp
    · split <;> simp

theorem splitSlash_no_slash : ∀ p : GoStr, ∀ s ∈ splitSlash p, '/' ∉ s := by
  intro p
  induction p with
  | nil =>
    intro s hs
    simp only [splitSlash, List.mem_singleton] at hs
    subst hs; simp
  | cons c rest ih =>
    intro s hs
    simp only [splitSlash] at hs
    by_cases hc : c = '/'
    · rw [if_pos hc] at hs
      rcases List.mem_cons.mp hs with h | h
      · subst h; simp
      · exact ih s h
    · rw [if_neg hc] at hs
      rcases h0 : splitSlash rest with _ | ⟨s0, ss⟩
      · exact absurd h0 (splitSlash_ne_nil rest)
      · rw [h0] at hs
        rcases List.mem_cons.mp hs with h | h
        · subst h
          intro hmem
          rcases List.mem_cons.mp hmem with h1 | h1
          · exact hc h1.symm
          · exact ih s0 (by rw [h0]; exact List.mem_cons_self _ _) h1
        · exact ih s (by rw [h0]; exact List.mem_cons_of_mem _ h)

theorem splitSlash_append_slash (x y : GoStr) :
    splitSlash (x ++ '/' :: y) = splitSlash x ++ splitSlash y := by
  induction x with
  | nil =>
    show splitSlash ('/' :: y) = splitSlash [] ++ splitSlash y
    simp [splitSlash]
  | cons c x' ih =>
    show splitSlash (c :: (x' ++ '/' :: y)) = splitSlash (c :: x') ++ splitSlash y
    by_cases hc : c = '/'
    · simp only [splitSlash, if_pos hc, ih, List.cons_append]
    · simp only [splitSlash, if_neg hc, ih]
      rcases h0 : splitSlash x' with _ | ⟨s0, ss⟩
      · exact absurd h0 (splitSlash_ne_nil x')
      · simp

theorem splitSlash_noslash (s : GoStr) (h : '/' ∉ s) : splitSlash s = [s] := by
  induction s with
  | nil => simp [splitSlash]
  | cons c s' ih =>
    have hc : ¬ c = '/' := fun hcc => h (by simp [hcc])
    have hs' : '/' ∉ s' := fun hm => h (List.mem_cons_of_mem _ hm)
    simp only [splitSlash, if_neg hc, ih hs']

theorem joinSegs_cons₂ (s t : GoStr) (more : List GoStr) :
    joinSegs (s :: t :: more) = s ++ '/' :: joinSegs (t :: more) := rfl

theorem splitSlash_joinSegs : ∀ segs : List GoStr, (∀ s ∈ segs, '/' ∉ s) → segs ≠ [] →
    splitSlash (joinSegs segs) = segs
  | [], _, h => absurd rfl h
  | [s], h, _ => splitSlash_noslash s (h s (by simp))
  | s :: t :: more, h, _ => by
    rw [joinSegs_cons₂, splitSlash_append_slash,
      splitSlash_noslash s (h s (by simp)),
      splitSlash_joinSegs (t :: more) (fun u hu => h u (List.mem_cons_of_mem _ hu)) (by simp)]
    rfl

theorem cleanStack_append (r : Bool) : ∀ xs ys st,
    cleanStack r (xs ++ ys) st = cleanStack r ys (cleanStack r xs st)
  | [], _, _ => rfl
  | s :: xs, ys, st => by
    simp only [List.cons_append, cleanStack]
    split
    · exact cleanStack_append r xs ys st
    · split
      · split
        · split <;> exact cleanStack_append r xs ys _
        · split <;> exact cleanStack_append r xs ys _
      · exact cleanStack_append r xs ys _

theorem cleanStack_wf (r : Bool) : ∀ xs st,
    (∀ s ∈ xs, '/' ∉ s) → (∀ s ∈ st, CleanSeg s) →
    ∀ s ∈ cleanStack r xs st, CleanSeg s
  | [], st, _, hst => hst
  | s :: xs, st, hxs, hst => by
    have hxs' : ∀ u ∈ xs, '/' ∉ u := fun u hu => hxs u (List.mem_cons_of_mem _ hu)
    have hdd : CleanSeg dotdotSeg := ⟨by decide, by decide, by decide⟩
    by_cases h1 : s = [] ∨ s = dotSeg
    · rw [show cleanStack r (s :: xs) st = cleanStack r xs st from by
        simp only [cleanStack, if_pos h1]]
      exact cleanStack_wf r xs st hxs' hst
    · by_cases h2 : s = dotdotSeg
      · rcases st with _ | ⟨t, st'⟩
        · cases r
          · rw [show cleanStack false (s :: xs) [] = cleanStack false xs [dotdotSeg] from by
              simp only [cleanStack, if_neg h1, if_pos h2]; rfl]
            exact cleanStack_wf false xs [dotdotSeg] hxs'
              (fun u hu => by simp only [List.mem_singleton] at hu; subst hu; exact hdd)
          · rw [show cleanStack true (s :: xs) [] = cleanStack true xs [] from by
              simp only [cleanStack, if_neg h1, if_pos h2]; rfl]
            exact cleanStack_wf true xs [] hxs' (by simp)
        · by_cases h3 : t = dotdotSeg
          · rw [show cleanStack r (s :: xs) (t :: st') =
                cleanStack r xs (dotdotSeg :: t :: st') from by
              simp only [cleanStack, if_neg h1, if_pos h2, if_pos h3]]
            refine cleanStack_wf r xs _ hxs' ?_
            intro u hu
            rcases List.mem_cons.mp hu with h | h
            · subst h; exact hdd
            · exact hst u h
          · rw [show cleanStack r (s :: xs) (t :: st') = cleanStack r xs st' from by
              simp only [cleanStack, if_neg h1, if_pos h2, if_neg h3]]
            exact cleanStack_wf r xs st' hxs' (fun u hu => hst u (List.mem_cons_of_mem _ hu))
      · rw [show cleanStack r (s :: xs) st = cleanStack r xs (s :: st) from by
          simp only [cleanStack, if_neg h1, if_neg h2]]
        push_neg at h1
        refine cleanStack_wf r xs _ hxs' ?_
        intro u hu
        rcases List.mem_cons.mp hu with h | h
        · rw [h]; exact ⟨h1.1, hxs s (List.mem_cons_self _ _), h1.2⟩
        · exact hst u h

theorem cleanStack_normal (r : Bool) : ∀ xs st,
    (∀ s ∈ xs, CleanSeg s ∧ s ≠ dotdotSeg) →
    cleanStack r xs st = xs.reverse ++ st
  | [], _, _ => by simp [cleanStack]
  | s :: xs, st, h => by
    obtain ⟨⟨h1, _, h3⟩, h4⟩ := h s (List.mem_cons_self _ _)
    have hxs : ∀ u ∈ xs, CleanSeg u ∧ u ≠ dotdotSeg :=
      fun u hu => h u (List.mem_cons_of_mem _ hu)
    have hcon : ¬ (s = [] ∨ s = dotSeg) := by
      rintro (h | h)
      · exact h1 h
      · exact h3 h
    rw [show cleanStack r (s :: xs) st = cleanStack r xs (s :: st) from by
        simp only [cleanStack, if_neg hcon, if_neg h4],
      cleanStack_normal r xs (s :: st) hxs]
    simp

theorem joinSegs_ne_nil : ∀ segs : List GoStr, (∀ s ∈ segs, s ≠ []) → segs ≠ [] →
    joinSegs segs ≠ []
  | [s], h, _ => h s (by simp)
  | s :: t :: m, h, _ => by
    rw [joinSegs_cons₂]
    simp

theorem joinSegs_head : ∀ segs : List GoStr, (∀ s ∈ segs, CleanSeg s) → segs ≠ [] →
    ∃ c x, joinSegs segs = c :: x ∧ c ≠ '/'
  | [s], h, _ => by
    obtain ⟨h1, h2, _⟩ := h s (by simp)
    rcases s with _ | ⟨c, s'⟩
    · exact absurd rfl h1
    · exact ⟨c, s', rfl, fun hc => h2 (by simp [hc])⟩
  | s :: t :: m, h, _ => by
    obtain ⟨h1, h2, _⟩ := h s (by simp)
    rcases s with _ | ⟨c, s'⟩
    · exact absurd rfl h1
    · exact ⟨c, s' ++ '/' :: joinSegs (t :: m), by rw [joinSegs_cons₂]; rfl,
        fun hc => h2 (by simp [hc])⟩

theorem joinSegs_ne_dot : ∀ segs : List GoStr, (∀ s ∈ segs, CleanSeg s) → segs ≠ [] →
    joinSegs segs ≠ dotSeg
  | [s], h, _ => (h s (by simp)).2.2
  | s :: t :: m, h, _ => by
    obtain ⟨h1, _, _⟩ := h s (by simp)
    rw [joinSegs_cons₂]
    intro heq
    have hlen := congrArg List.length heq
    rcases s with _ | ⟨c, s'⟩
    · exact absurd rfl h1
    · simp [dotSeg] at hlen

theorem render_ne_nil (r : Bool) (segs : List GoStr) : render r segs ≠ [] := by
  simp only [render]
  split
  · simp
  · split
    · simp [dotSeg]
    · rename_i h; exact h

theorem render_false_eq (segs : List GoStr) (h : ∀ s ∈ segs, CleanSeg s)
    (hne : segs ≠ []) : render false segs = joinSegs segs := by
  have hb := joinSegs_ne_nil segs (fun s hs => (h s hs).1) hne
  simp [render, hb]

theorem isRooted_render (r : Bool) (segs : List GoStr) (h : ∀ s ∈ segs, CleanSeg s) :
    isRooted (render r segs) = r := by
  cases r
  · rcases hs : segs with _ | ⟨s, ss⟩
    · simp [render, joinSegs, isRooted, dotSeg]
    · rw [← hs, render_false_eq segs h (by rw [hs]; simp)]
      obtain ⟨c, x, hcx, hc⟩ := joinSegs_head segs h (by rw [hs]; simp)
      rw [hcx]
      simp [isRooted, hc]
  · simp [render, isRooted]

theorem segsOfClean_render (r : Bool) (segs : List GoStr) (h : ∀ s ∈ segs, CleanSeg s) :
    segsOfClean (render r segs) = segs := by
  have hnoslash : ∀ s ∈ segs, '/' ∉ s := fun s hs => (h s hs).2.1
  have hnonnil : ∀ s ∈ segs, s ≠ [] := fun s hs => (h s hs).1
  have hfilter : segs.filter (fun s => ¬ s = []) = segs :=
    List.filter_eq_self.mpr (fun s hs => by simpa using hnonnil s hs)
  cases r
  · rcases hs : segs with _ | ⟨s, ss⟩
    · simp [render, joinSegs, segsOfClean]
    · rw [← hs, render_false_eq segs h (by rw [hs]; simp)]
      rw [segsOfClean, if_neg (joinSegs_ne_dot segs h (by rw [hs]; simp)),
        splitSlash_joinSegs segs hnoslash (by rw [hs]; simp), hfilter]
  · have hsplit : splitSlash ('/' :: joinSegs segs) = [] :: splitSlash (joinSegs segs) := by
      simp [splitSlash]
    have hne : ('/' :: joinSegs segs) ≠ dotSeg := by
      intro hcon
      have : '/' = '.' := by
        have := congrArg List.head? hcon
        simp [dotSeg] at this
      simp at this
    rcases hs : segs with _ | ⟨s, ss⟩
    · simp [render, segsOfClean, joinSegs, splitSlash, dotSeg]
    · rw [← hs]
      show segsOfClean ('/' :: joinSegs segs) = segs
      rw [segsOfClean, if_neg hne, hsplit,
        splitSlash_joinSegs segs hnoslash (by rw [hs]; simp)]
      simp only [List.filter_cons]
      rw [if_neg (by simp)]
      exact hfilter

theorem goClean_shape (p : GoStr) :
    ∃ r segs, goClean p = render r segs ∧ ∀ s ∈ segs, CleanSeg s := by
  by_cases hp : p = []
  · refine ⟨false, [], ?_, by simp⟩
    simp [hp, goClean, render, joinSegs]
  · refine ⟨decide (p.head? = some '/'),
      (cleanStack (decide (p.head? = some '/')) (splitSlash p) []).reverse, ?_, ?_⟩
    · simp [goClean, hp]
    · intro s hs
      exact cleanStack_wf _ (splitSlash p) [] (splitSlash_no_slash p) (by simp) s
        (List.mem_reverse.mp hs)

theorem seg_cancel : ∀ (b j x y : GoStr), '/' ∉ b → '/' ∉ j →
    (y = [] ∨ ∃ y', y = '/' :: y') →
    ((b ++ '/' :: x) <+: (j ++ y) ↔ b = j ∧ ('/' :: x) <+: y)
  | [], [], x, y, _, _, _ => by simp
  | [], j0 :: j', x, y, _, hj, _ => by
    simp only [List.nil_append, List.cons_append]
    rw [List.cons_prefix_cons]
    constructor
    · rintro ⟨h1, _⟩
      exact absurd h1 (fun hh => hj (by rw [hh]; exact List.mem_cons_self _ _))
    · rintro ⟨h1, _⟩
      exact absurd h1 (by simp)
  | b0 :: b', [], x, y, hb, _, hy => by
    rcases hy with h | ⟨y', h⟩
    · subst h
      simp only [List.nil_append, List.cons_append, List.prefix_nil]
      constructor
      · intro hh; exact absurd hh (by simp)
      · rintro ⟨h1, _⟩; exact absurd h1 (by simp)
    · subst h
      simp only [List.nil_append, List.cons_append]
      rw [List.cons_prefix_cons]
      constructor
      · rintro ⟨h1, _⟩
        exact absurd h1 (fun hh => hb (by rw [hh]; exact List.mem_cons_self _ _))
      · rintro ⟨h1, _⟩
        exact absurd h1 (by simp)
  | b0 :: b', j0 :: j'', x, y, hb, hj, hy => by
    simp only [List.cons_append]
    rw [List.cons_prefix_cons]
    have ih := seg_cancel b' j'' x y
      (fun hm => hb (List.mem_cons_of_mem _ hm))
      (fun hm => hj (List.mem_cons_of_mem _ hm)) hy
    constructor
    · rintro ⟨h1, h2⟩
      obtain ⟨h3, h4⟩ := ih.mp h2
      exact ⟨by rw [h1, h3], h4⟩
    · rintro ⟨h1, h2⟩
      rw [List.cons.injEq] at h1
      exact ⟨h1.1, ih.mpr ⟨h1.2, h2⟩⟩

theorem join_strict : ∀ bs js : List GoStr,
    (∀ s ∈ bs, CleanSeg s) → (∀ s ∈ js, CleanSeg s) → bs ≠ [] →
    ((joinSegs bs ++ ['/']) <+: joinSegs js ↔ bs <+: js ∧ bs ≠ js)
  | [], _, _, _, hne => absurd rfl hne
  | [s], [], hb, _, _ => by
    show (s ++ '/' :: []) <+: [] ↔ _
    rw [List.prefix_nil]
    constructor
    · intro hh; exact absurd hh (by simp)
    · rintro ⟨h1, _⟩
      exact absurd (List.prefix_nil.mp h1) (by simp)
  | [s], j :: js', hb, hj, _ => by
    have hsy : '/' ∉ s := (hb s (by simp)).2.1
    have hjy : '/' ∉ j := (hj j (by simp)).2.1
    rcases js' with _ | ⟨t, m⟩
    · have hsc := seg_cancel s j [] [] hsy hjy (Or.inl rfl)
      rw [List.append_nil] at hsc
      show (s ++ '/' :: []) <+: j ↔ ([s] <+: [j] ∧ [s] ≠ [j])
      rw [hsc]
      constructor
      · rintro ⟨_, h2⟩
        exact absurd h2 (by simp)
      · rintro ⟨h1, h2⟩
        obtain ⟨h3, _⟩ := List.cons_prefix_cons.mp h1
        exact absurd (by rw [h3]) h2
    · have hsc := seg_cancel s j [] ('/' :: joinSegs (t :: m)) hsy hjy (Or.inr ⟨_, rfl⟩)
      show (s ++ '/' :: []) <+: (j ++ '/' :: joinSegs (t :: m)) ↔
        ([s] <+: j :: t :: m ∧ [s] ≠ j :: t :: m)
      rw [hsc]
      constructor
      · rintro ⟨h1, _⟩
        subst h1
        exact ⟨List.cons_prefix_cons.mpr ⟨rfl, List.nil_prefix⟩, by simp⟩
      · rintro ⟨h1, _⟩
        have h3 := (List.cons_prefix_cons.mp h1).1
        subst h3
        exact ⟨rfl, List.cons_prefix_cons.mpr ⟨rfl, List.nil_prefix⟩⟩
  | s :: s2 :: bs'', [], hb, _, _ => by
    show (joinSegs (s :: s2 :: bs'') ++ ['/']) <+: [] ↔ _
    rw [List.prefix_nil]
    constructor
    · intro hh; exact absurd hh (by simp [joinSegs_cons₂])
    · rintro ⟨h1, _⟩
      exact absurd (List.prefix_nil.mp h1) (by simp)
  | s :: s2 :: bs'', j :: js', hb, hj, _ => by
    have hsy : '/' ∉ s := (hb s (by simp)).2.1
    have hjy : '/' ∉ j := (hj j (by simp)).2.1
    have hb' : ∀ u ∈ s2 :: bs'', CleanSeg u := fun u hu => hb u (List.mem_cons_of_mem _ hu)
    have hstep : joinSegs (s :: s2 :: bs'') ++ ['/'] =
        s ++ '/' :: (joinSegs (s2 :: bs'') ++ ['/']) := by
      rw [joinSegs_cons₂]; simp
    rcases js' with _ | ⟨t, m⟩
    · have hsc := seg_cancel s j (joinSegs (s2 :: bs'') ++ ['/']) [] hsy hjy (Or.inl rfl)
      rw [List.append_nil] at hsc
      rw [hstep]
      show (s ++ '/' :: (joinSegs (s2 :: bs'') ++ ['/'])) <+: j ↔ _
      rw [hsc]
      constructor
      · rintro ⟨_, h2⟩
        exact absurd h2 (by simp)
      · rintro ⟨h1, _⟩
        have := (List.cons_prefix_cons.mp h1).2
        exact absurd (List.prefix_nil.mp this) (by simp)
    · have ih := join_strict (s2 :: bs'') (t :: m) hb'
        (fun u hu => hj u (List.mem_cons_of_mem _ hu)) (by simp)
      have hsc := seg_cancel s j (joinSegs (s2 :: bs'') ++ ['/'])
        ('/' :: joinSegs (t :: m)) hsy hjy (Or.inr ⟨_, rfl⟩)
      rw [hstep]
      show (s ++ '/' :: (joinSegs (s2 :: bs'') ++ ['/'])) <+:
          (j ++ '/' :: joinSegs (t :: m)) ↔ _
      rw [hsc, List.cons_prefix_cons]
      constructor
      · rintro ⟨h1, _, h2⟩
        obtain ⟨h3, h4⟩ := ih.mp h2
        subst h1
        refine ⟨List.cons_prefix_cons.mpr ⟨rfl, h3⟩, ?_⟩
        intro hcon
        rw [List.cons.injEq] at hcon
        exact h4 hcon.2
      · rintro ⟨h1, h2⟩
        rw [List.cons_prefix_cons] at h1
        obtain ⟨h3, h4⟩ := h1
        subst h3
        refine ⟨rfl, rfl, ih.mpr ⟨h4, ?_⟩⟩
        intro hcon
        exact h2 (by rw [hcon])

theorem render_strict (rB rJ : Bool) (bs js : List GoStr)
    (hb : ∀ s ∈ bs, CleanSeg s) (hj : ∀ s ∈ js, CleanSeg s) (hne : bs ≠ []) :
    ((render rB bs ++ ['/']) <+: render rJ js ↔ (rB = rJ ∧ bs <+: js ∧ bs ≠ js)) := by
  cases rB <;> cases rJ
  · cases js with
    | nil =>
      rw [render_false_eq bs hb hne]
      show (joinSegs bs ++ ['/']) <+: ['.'] ↔ _
      constructor
      · intro hh
        have hlen := hh.length_le
        obtain ⟨c, x, hcx, _⟩ := joinSegs_head bs hb hne
        rw [hcx] at hlen
        simp at hlen
      · rintro ⟨_, h2, _⟩
        exact absurd (List.prefix_nil.mp h2) hne
    | cons j js' =>
      rw [render_false_eq bs hb hne, render_false_eq (j :: js') hj (by simp),
        join_strict bs (j :: js') hb hj hne]
      simp
  · rw [render_false_eq bs hb hne]
    obtain ⟨c, x, hcx, hc⟩ := joinSegs_head bs hb hne
    show (joinSegs bs ++ ['/']) <+: ('/' :: joinSegs js) ↔ _
    rw [hcx]
    constructor
    · intro hh
      have := (List.cons_prefix_cons.mp hh).1
      exact absurd this hc
    · rintro ⟨h1, _⟩
      exact absurd h1 (by simp)
  · cases js with
    | nil =>
      show ('/' :: (joinSegs bs ++ ['/'])) <+: ['.'] ↔ _
      constructor
      · intro hh
        have := (List.cons_prefix_cons.mp hh).1
        simp at this
      · rintro ⟨h1, _⟩
        exact absurd h1 (by simp)
    | cons j js' =>
      rw [render_false_eq (j :: js') hj (by simp)]
      obtain ⟨c, x, hcx, hc⟩ := joinSegs_head (j :: js') hj (by simp)
      show ('/' :: (joinSegs bs ++ ['/'])) <+: joinSegs (j :: js') ↔ _
      rw [hcx]
      constructor
      · intro hh
        have := (List.cons_prefix_cons.mp hh).1
        exact absurd this.symm hc
      · rintro ⟨h1, _⟩
        exact absurd h1 (by simp)
  · show ('/' :: (joinSegs bs ++ ['/'])) <+: ('/' :: joinSegs js) ↔ _
    rw [List.cons_prefix_cons, join_strict bs js hb hj hne]
    simp

theorem clean_no_special (r : Bool) (segs : List GoStr) (h : ∀ s ∈ segs, CleanSeg s) :
    ¬ (dotSeg ++ ['/']) <+: render r segs ∧ ¬ (['/'] ++ ['/']) <+: render r segs := by
  cases r
  · cases segs with
    | nil =>
      constructor
      · intro hh
        have := hh.length_le
        simp [render, joinSegs, dotSeg] at this
      · intro hh
        have := (List.cons_prefix_cons.mp hh).1
        simp at this
    | cons s ss =>
      rw [render_false_eq (s :: ss) h (by simp)]
      obtain ⟨h1, h2, h3⟩ := h s (by simp)
      rcases s with _ | ⟨c, s'⟩
      · exact absurd rfl h1
      obtain ⟨X, hX⟩ : ∃ X, joinSegs ((c :: s') :: ss) = c :: (s' ++ X) := by
        cases ss with
        | nil => exact ⟨[], by simp [joinSegs]⟩
        | cons t m => exact ⟨'/' :: joinSegs (t :: m), by rw [joinSegs_cons₂]; simp⟩
      rw [hX]
      constructor
      · intro hh
        obtain ⟨hc1, hrest⟩ := List.cons_prefix_cons.mp hh
        rcases s' with _ | ⟨c2, s''⟩
        · exact h3 (by rw [← hc1]; rfl)
        · have := (List.cons_prefix_cons.mp hrest).1
          exact h2 (by rw [this]; simp)
      · intro hh
        have := (List.cons_prefix_cons.mp hh).1
        exact h2 (by rw [this]; simp)
  · constructor
    · intro hh
      have := (List.cons_prefix_cons.mp hh).1
      simp at this
    · intro hh
      have hrest : ['/'] <+: joinSegs segs :=
        (List.cons_prefix_cons.mp (by exact hh)).2
      cases segs with
      | nil =>
        have := hrest.length_le
        simp [joinSegs] at this
      | cons s ss =>
        obtain ⟨c, x, hcx, hc⟩ := joinSegs_head (s :: ss) h (by simp)
        rw [hcx] at hrest
        exact hc ((List.cons_prefix_cons.mp hrest).1).symm

theorem strict_len {bs js : List GoStr} (hp : bs <+: js) :
    (bs ≠ js ↔ bs.length < js.length) := by
  constructor
  · intro hne
    rcases Nat.lt_or_ge bs.length js.length with h | h
    · exact h
    · exact absurd (List.IsPrefix.eq_of_length hp
        (Nat.le_antisymm hp.length_le h)) hne
  · intro hlt hcon
    rw [hcon] at hlt
    exact Nat.lt_irrefl _ hlt

theorem hasPrefix_clean (x y : GoStr) :
    (goHasPrefix (goClean y) (goClean x ++ ['/']) = true →
      specStrictDesc (goClean x) (goClean y) = true)
    ∧ (goClean x ≠ dotSeg → goClean x ≠ ['/'] →
      (goHasPrefix (goClean y) (goClean x ++ ['/']) = true ↔
        specStrictDesc (goClean x) (goClean y) = true)) := by
  obtain ⟨rB, bs, hBx, hBwf⟩ := goClean_shape x
  obtain ⟨rJ, js, hJy, hJwf⟩ := goClean_shape y
  rw [hBx, hJy]
  rcases hbs : bs with _ | ⟨b0, bs'⟩
  · subst hbs
    constructor
    · intro hh
      rw [goHasPrefix, List.isPrefixOf_iff_prefix] at hh
      exfalso
      cases rB
      · exact (clean_no_special rJ js hJwf).1 (by
          rw [show render false [] = dotSeg from rfl] at hh; exact hh)
      · exact (clean_no_special rJ js hJwf).2 (by
          rw [show render true [] = ['/'] from rfl] at hh; exact hh)
    · intro hdot hslash
      exfalso
      cases rB
      · exact hdot rfl
      · exact hslash rfl
  · rw [← hbs]
    have hne : bs ≠ [] := by rw [hbs]; simp
    have hiff : goHasPrefix (render rJ js) (render rB bs ++ ['/']) = true ↔
        specStrictDesc (render rB bs) (render rJ js) = true := by
      rw [goHasPrefix, List.isPrefixOf_iff_prefix,
        render_strict rB rJ bs js hBwf hJwf hne]
      rw [specStrictDesc, isRooted_render rB bs hBwf, isRooted_render rJ js hJwf,
        segsOfClean_render rB bs hBwf, segsOfClean_render rJ js hJwf]
      simp only [Bool.and_eq_true, beq_iff_eq, List.isPrefixOf_iff_prefix,
        decide_eq_true_eq]
      constructor
      · rintro ⟨h1, h2, h3⟩
        exact ⟨⟨h1.symm, h2⟩, (strict_len h2).mp h3⟩
      · rintro ⟨⟨h1, h2⟩, h3⟩
        exact ⟨h1.symm, h2, (strict_len h2).mpr h3⟩
    exact ⟨hiff.mp, fun _ _ => hiff⟩

theorem containedPath_ok_iff (basePath key : GoStr)
    (hdot : goClean basePath ≠ dotSeg) (hslash : goClean basePath ≠ ['/']) :
    containedPath basePath key = .ok (goClean (goJoin basePath key)) ↔
      (goClean (goJoin basePath key) = goClean basePath ∨
       specStrictDesc (goClean basePath) (goClean (goJoin basePath key)) = true) := by
  have hpf := (hasPrefix_clean basePath (goJoin basePath key)).2 hdot hslash
  simp only [containedPath]
  by_cases hcond : ¬ (goHasPrefix (goClean (goJoin basePath key))
      (goClean basePath ++ ['/']) = true) ∧
      goClean (goJoin basePath key) ≠ goClean basePath
  · rw [if_pos hcond]
    constructor
    · intro h; cases h
    · rintro (h | h)
      · exact absurd h hcond.2
      · exact absurd (hpf.mpr h) hcond.1
  · rw [if_neg hcond]
    push_neg at hcond
    constructor
    · intro _
      by_cases heq : goClean (goJoin basePath key) = goClean basePath
      · exact Or.inl heq
      · refine Or.inr (hpf.mp ?_)
        by_contra hnp
        exact heq (hcond hnp)
    · intro _; rfl

theorem containedPath_err (basePath key : GoStr) {e : StorageError}
    (h : containedPath basePath key = .error e) : e = .pathEscape key basePath := by
  simp only [containedPath] at h
  split at h
  · rw [Except.error.injEq] at h
    exact h.symm
  · cases h

theorem containedPath_ok_val (basePath key : GoStr) {p : GoStr}
    (h : containedPath basePath key = .ok p) : p = goClean (goJoin basePath key) := by
  simp only [containedPath] at h
  split at h
  · cases h
  · rw [Except.ok.injEq] at h
    exact h.symm

theorem containedPath_outside (basePath key : GoStr)
    (hne : goClean (goJoin basePath key) ≠ goClean basePath)
    (hnd : specStrictDesc (goClean basePath) (goClean (goJoin basePath key)) = false) :
    containedPath basePath key = .error (.pathEscape key basePath) := by
  have hforward := (hasPrefix_clean basePath (goJoin basePath key)).1
  have h1 : ¬ goHasPrefix (goClean (goJoin basePath key))
      (goClean basePath ++ ['/']) = true := by
    intro hh
    rw [hforward hh] at hnd
    simp at hnd
  simp only [containedPath]
  rw [if_pos ⟨h1, hne⟩]

theorem containedPath_empty (key : GoStr) {p : GoStr}
    (h : containedPath [] key = .ok p) : p = dotSeg := by
  simp only [containedPath] at h
  split at h
  · cases h
  · rename_i hcond
    rw [Except.ok.injEq] at h
    rw [not_and_or, not_not, not_not] at hcond
    rcases hcond with hh | hh
    · exfalso
      obtain ⟨rJ, js, hJ, hJwf⟩ := goClean_shape (goJoin [] key)
      rw [goHasPrefix, List.isPrefixOf_iff_prefix, hJ] at hh
      exact (clean_no_special rJ js hJwf).1 (by
        rw [show goClean ([] : GoStr) = dotSeg from rfl] at hh
        exact hh)
    · rw [← h, hh]
      rfl

/-
Filesystem tree lemmas: effects of create, remove and mkdir on lookups.
-/

theorem findEntry_setEntry : ∀ (es : List (GoStr × Node)) (nm : GoStr) (c : Node),
    (∃ d, findEntry es nm = some d) →
    findEntry (setEntry es nm c) nm = some c
  | [], nm, c, h => by
    obtain ⟨d, hd⟩ := h
    simp [findEntry] at hd
  | e :: es, nm, c, h => by
    by_cases he : e.1 = nm
    · simp [findEntry, setEntry, List.find?, he]
    · obtain ⟨d, hd⟩ := h
      simp only [findEntry, List.find?] at hd
      rw [show (decide (e.1 = nm)) = false by simp [he]] at hd
      simp only [setEntry, List.map, if_neg he]
      simp only [findEntry, List.find?]
      rw [show (decide (e.1 = nm)) = false by simp [he]]
      exact findEntry_setEntry es nm c ⟨d, hd⟩

theorem findEntry_append : ∀ (es : List (GoStr × Node)) (nm : GoStr) (c : Node),
    findEntry es nm = none →
    findEntry (es ++ [(nm, c)]) nm = some c
  | [], nm, c, _ => by simp [findEntry, List.find?]
  | e :: es, nm, c, h => by
    by_cases he : e.1 = nm
    · simp [findEntry, List.find?, he] at h
    · simp only [findEntry, List.find?] at h ⊢
      rw [show (decide (e.1 = nm)) = false by simp [he]] at h ⊢
      exact findEntry_append es nm c h

theorem findEntry_filter (es : List (GoStr × Node)) (nm : GoStr) :
    findEntry (es.filter (fun e => ¬ e.1 = nm)) nm = none := by
  induction es with
  | nil => simp [findEntry]
  | cons e es ih =>
    by_cases he : e.1 = nm
    · simp only [List.filter_cons]
      rw [if_neg (by simp [he])]
      exact ih
    · simp only [List.filter_cons]
      rw [if_pos (by simp [he])]
      simp only [findEntry, List.find?]
      rw [show (decide (e.1 = nm)) = false by simp [he]]
      exact ih

theorem createWrite_ne_nil {segs : List GoStr} {content : List Nat} {root root' : Node}
    (h : createWriteNode segs content root = some root') : segs ≠ [] := by
  intro hcon
  subst hcon
  cases h

theorem lookup_createWrite : ∀ (segs : List GoStr) (content : List Nat) (root root' : Node),
    createWriteNode segs content root = some root' →
    lookupNode segs root' = .found (.file content)
  | [], _, _, _, h => by cases h
  | [s], content, .file _, _, h => by cases h
  | [s], content, .dir es, root', h => by
    simp only [createWriteNode] at h
    rcases hf : findEntry es s with _ | c
    · rw [hf] at h
      rw [Option.some.injEq] at h
      subst h
      simp only [lookupNode]
      rw [findEntry_append es s _ hf]
    · rw [hf] at h
      rcases c with cc | ces
      · rw [Option.some.injEq] at h
        subst h
        simp only [lookupNode]
        rw [findEntry_setEntry es s _ ⟨_, hf⟩]
      · cases h
  | s :: t :: more, content, .file _, _, h => by cases h
  | s :: t :: more, content, .dir es, root', h => by
    simp only [createWriteNode] at h
    rcases hf : findEntry es s with _ | c
    · rw [hf] at h; cases h
    · rw [hf] at h
      dsimp only at h
      rcases hcw : createWriteNode (t :: more) content c with _ | c'
      · rw [hcw] at h; cases h
      · rw [hcw] at h
        simp only [Option.map] at h
        rw [Option.some.injEq] at h
        subst h
        simp only [lookupNode]
        rw [findEntry_setEntry es s c' ⟨_, hf⟩]
        exact lookup_createWrite (t :: more) content c c' hcw

theorem remove_enoent : ∀ (segs : List GoStr) (root : Node) (c : List Nat),
    segs ≠ [] →
    lookupNode segs root = .found (.file c) →
    ∃ root', removeNode segs root = some root' ∧ lookupNode segs root' = .enoent
  | [], _, _, hne, _ => absurd rfl hne
  | [s], .file _, c, _, hlk => by cases hlk
  | [s], .dir es, c, _, hlk => by
    simp only [lookupNode] at hlk
    rcases hf : findEntry es s with _ | d
    · rw [hf] at hlk; cases hlk
    · rw [hf] at hlk
      simp only [lookupNode] at hlk
      rw [Lk.found.injEq] at hlk
      subst hlk
      refine ⟨.dir (es.filter (fun e => ¬ e.1 = s)), ?_, ?_⟩
      · simp only [removeNode]
        rw [hf]
      · simp only [lookupNode]
        rw [findEntry_filter es s]
  | s :: t :: more, .file _, c, _, hlk => by cases hlk
  | s :: t :: more, .dir es, c, _, hlk => by
    simp only [lookupNode] at hlk
    rcases hf : findEntry es s with _ | child
    · rw [hf] at hlk; cases hlk
    · rw [hf] at hlk
      obtain ⟨child', hrm, henoent⟩ := remove_enoent (t :: more) child c (by simp) hlk
      refine ⟨.dir (setEntry es s child'), ?_, ?_⟩
      · simp only [removeNode]
        rw [hf]
        dsimp only
        rw [hrm]
        rfl
      · simp only [lookupNode]
        rw [findEntry_setEntry es s child' ⟨_, hf⟩]
        exact henoent

theorem create_overwrite : ∀ (segs : List GoStr) (root : Node) (d : List Nat) (c : List Nat),
    lookupNode segs root = .found (.file d) → segs ≠ [] →
    ∃ root', createWriteNode segs c root = some root'
  | [], _, _, _, _, hne => absurd rfl hne
  | [s], .file _, _, _, hlk, _ => by cases hlk
  | [s], .dir es, d, c, hlk, _ => by
    simp only [lookupNode] at hlk
    rcases hf : findEntry es s with _ | e
    · rw [hf] at hlk; cases hlk
    · rw [hf] at hlk
      simp only [lookupNode] at hlk
      rw [Lk.found.injEq] at hlk
      subst hlk
      refine ⟨.dir (setEntry es s (.file c)), ?_⟩
      simp only [createWriteNode]
      rw [hf]
  | s :: t :: more, .file _, _, _, hlk, _ => by cases hlk
  | s :: t :: more, .dir es, d, c, hlk, _ => by
    simp only [lookupNode] at hlk
    rcases hf : findEntry es s with _ | child
    · rw [hf] at hlk; cases hlk
    · rw [hf] at hlk
      obtain ⟨child', hcw⟩ := create_overwrite (t :: more) child d c hlk (by simp)
      refine ⟨.dir (setEntry es s child'), ?_⟩
      simp only [createWriteNode]
      rw [hf]
      dsimp only
      rw [hcw]
      rfl

theorem goClean_ne_nil (p : GoStr) : goClean p ≠ [] := by
  obtain ⟨r, segs, heq, _⟩ := goClean_shape p
  rw [heq]
  exact render_ne_nil r segs

/-- C3: if PutFile fails partway through streaming (the reader errors
mid-copy), the partially written destination file is removed before the
error is returned, so a subsequent StatFile on that key returns the
distinguished NotFound error — no half-written file is left at the
destination key. -/
theorem c3_putFile_midstream_cleanup (fs : Fs) (cfg : LocalConfig) (key : GoStr)
    (r : GoReader) (fs' : Fs)
    (h : putFile fs cfg key r = (fs', .error .readerError)) :
    statFile fs' cfg key = .error .errNotFound := by
  rcases hcp : containedPath cfg.path key with e | p
  · exfalso
    simp only [putFile] at h
    rw [hcp] at h
    dsimp only at h
    rw [Prod.mk.injEq] at h
    have he := h.2
    rw [Except.error.injEq] at he
    rw [containedPath_err cfg.path key hcp] at he
    cases he
  · simp only [putFile] at h
    rw [hcp] at h
    dsimp only at h
    simp only [putFileAbsolute] at h
    rcases hm : mkdirAllNode (absSegs fs (goDir p)) fs.root with _ | root1
    · rw [hm] at h
      dsimp only at h
      rw [Prod.mk.injEq] at h
      have he := h.2
      rw [Except.error.injEq] at he
      cases he
    · rw [hm] at h
      dsimp only at h
      rcases hc1 : createWriteNode (absSegs fs p) [] root1 with _ | root2
      · rw [hc1] at h
        dsimp only at h
        rw [Prod.mk.injEq] at h
        have he := h.2
        rw [Except.error.injEq] at he
        cases he
      · rw [hc1] at h
        dsimp only at h
        rcases hrf : r.fails with _ | _
        · rw [hrf] at h
          simp only [Bool.false_eq_true, if_false] at h
          rcases hc2 : createWriteNode (absSegs fs p) r.bytes root2 with _ | root3
          · rw [hc2] at h
            dsimp only at h
            rw [Prod.mk.injEq] at h
            have he := h.2
            rw [Except.error.injEq] at he
            cases he
          · rw [hc2] at h
            dsimp only at h
            rw [Prod.mk.injEq] at h
            cases h.2
        · rw [hrf] at h
          simp only [if_true] at h
          have hne := createWrite_ne_nil hc1
          have hlk2 := lookup_createWrite _ _ _ _ hc1
          obtain ⟨root3, hrm, hlk3⟩ := remove_enoent (absSegs fs p) root2 [] hne hlk2
          have hfs' : fs' = { fs with root := root3 } := by
            rw [Prod.mk.injEq] at h
            rw [← h.1, hrm]
            rfl
          subst hfs'
          have hp : p ≠ [] := by
            rw [containedPath_ok_val cfg.path key hcp]
            exact goClean_ne_nil _
          simp only [statFile]
          rw [hcp]
          dsimp only
          simp only [statFileAbsolute, osStat]
          rw [if_neg hp]
          rw [show absSegs { fs with root := root3 } p = absSegs fs p from rfl]
          rw [hlk3]

/-- A successful PutFile means the key passed the guard and the resolved
path now holds exactly the reader's bytes; only the root of the filesystem
state changed. -/
theorem putFile_ok_state (fs : Fs) (cfg : LocalConfig) (key : GoStr) (r : GoReader)
    (fs' : Fs) (h : putFile fs cfg key r = (fs', .ok ())) :
    ∃ p, containedPath cfg.path key = .ok p ∧
      lookupNode (absSegs fs p) fs'.root = .found (.file r.bytes) ∧
      fs' = { fs with root := fs'.root } ∧ p ≠ [] := by
  rcases hcp : containedPath cfg.path key with e | p
  · exfalso
    simp only [putFile] at h
    rw [hcp] at h
    dsimp only at h
    rw [Prod.mk.injEq] at h
    cases h.2
  · refine ⟨p, rfl, ?_⟩
    simp only [putFile] at h
    rw [hcp] at h
    dsimp only at h
    simp only [putFileAbsolute] at h
    rcases hm : mkdirAllNode (absSegs fs (goDir p)) fs.root with _ | root1
    · rw [hm] at h
      dsimp only at h
      rw [Prod.mk.injEq] at h
      cases h.2
    · rw [hm] at h
      dsimp only at h
      rcases hc1 : createWriteNode (absSegs fs p) [] root1 with _ | root2
      · rw [hc1] at h
        dsimp only at h
        rw [Prod.mk.injEq] at h
        cases h.2
      · rw [hc1] at h
        dsimp only at h
        rcases hrf : r.fails with _ | _
        · rw [hrf] at h
          simp only [Bool.false_eq_true, if_false] at h
          rcases hc2 : createWriteNode (absSegs fs p) r.bytes root2 with _ | root3
          · rw [hc2] at h
            dsimp only at h
            rw [Prod.mk.injEq] at h
            cases h.2
          · rw [hc2] at h
            dsimp only at h
            rw [Prod.mk.injEq] at h
            have hfs' : fs' = { fs with root := root3 } := h.1.symm
            subst hfs'
            refine ⟨lookup_createWrite _ _ _ _ hc2, rfl, ?_⟩
            rw [containedPath_ok_val cfg.path key hcp]
            exact goClean_ne_nil _
        · rw [hrf] at h
          simp only [if_true] at h
          rw [Prod.mk.injEq] at h
          cases h.2

/-- C8: round-trip law — writing a byte sequence to a key inside the base
via PutFile and then reading the key back via GetFileReader yields exactly
the written bytes. -/
theorem c8_roundtrip (fs : Fs) (cfg : LocalConfig) (key : GoStr) (r : GoReader)
    (fs' : Fs) (h : putFile fs cfg key r = (fs', .ok ())) :
    getFileReader fs' cfg key = .ok r.bytes := by
  obtain ⟨p, hcp, hlk, hfs, hp⟩ := putFile_ok_state fs cfg key r fs' h
  simp only [getFileReader]
  rw [hcp]
  dsimp only
  simp only [getFileReaderAbsolute, osOpen, osStat]
  rw [if_neg hp]
  rw [show absSegs fs' p = absSegs fs p from by rw [hfs]; rfl]
  rw [hlk]

theorem c3_putFile_midstream_cleanup_witness :
    statFile (putFile fsA cfgA (gs "x/y") { bytes := [7, 8], fails := true }).1 cfgA
      (gs "x/y") = .error .errNotFound :=
  c3_putFile_midstream_cleanup fsA cfgA (gs "x/y") { bytes := [7, 8], fails := true }
    (putFile fsA cfgA (gs "x/y") { bytes := [7, 8], fails := true }).1 rfl

theorem c8_roundtrip_witness :
    getFileReader (putFile fsA cfgA (gs "x/y") { bytes := [7, 8], fails := false }).1 cfgA
      (gs "x/y") = .ok [7, 8] :=
  c8_roundtrip fsA cfgA (gs "x/y") { bytes := [7, 8], fails := false }
    (putFile fsA cfgA (gs "x/y") { bytes := [7, 8], fails := false }).1 rfl

theorem osStat_err (fs : Fs) (p : GoStr) {e : StorageError}
    (h : osStat fs p = .error e) : e = .enoent ∨ e = .enotdir := by
  simp only [osStat] at h
  split at h
  · rw [Except.error.injEq] at h
    exact Or.inl h.symm
  · split at h
    · cases h
    · rw [Except.error.injEq] at h
      exact Or.inl h.symm
    · rw [Except.error.injEq] at h
      exact Or.inr h.symm

/-- C10 counterexample: the claim says the descriptor's name is the base
name of the key; for the key "." (which resolves to the base directory
itself and passes the guard) StatFile succeeds with name "data" — the base
name of the resolved path /data — while the base name of the key "." is
".". -/
theorem c10_counterexample :
    statFile fsA cfgA (gs ".") = .ok { size := 0, name := gs "data" } ∧
    goBase (gs ".") = gs "." ∧ gs "data" ≠ gs "." := by
  exact ⟨by decide, by decide, by decide⟩

/-- C10 (amended): for every key that passes the containment guard, with p
the resolved path: StatFile returns the distinguished NotFound error
exactly when the OS stat fails with "does not exist"; any other OS stat
error is propagated unchanged; on success the File Descriptor carries the
node's size and the base name of the resolved path p (which equals the
base name of the key whenever the cleaned key ends in an ordinary
element); and after a successful write of a byte sequence to the key,
StatFile reports size equal to the number of bytes written. -/
theorem c10_statFile (fs : Fs) (cfg : LocalConfig) (key p : GoStr)
    (hcp : containedPath cfg.path key = .ok p) :
    (statFile fs cfg key = .error .errNotFound ↔ osStat fs p = .error .enoent)
    ∧ (∀ e, osStat fs p = .error e → e ≠ .enoent → statFile fs cfg key = .error e)
    ∧ (∀ n, osStat fs p = .ok n →
        statFile fs cfg key = .ok { size := nodeSize n, name := goBase p })
    ∧ (∀ r fs', putFile fs cfg key r = (fs', .ok ()) →
        statFile fs' cfg key = .ok { size := r.bytes.length, name := goBase p }) := by
  have hstat : statFile fs cfg key = statFileAbsolute fs p := by
    simp only [statFile]
    rw [hcp]
  refine ⟨?_, ?_, ?_, ?_⟩
  · rw [hstat]
    constructor
    · intro h
      rcases hs : osStat fs p with e | n
      · rcases osStat_err fs p hs with he | he
        · rw [he]
        · subst he
          simp only [statFileAbsolute] at h
          rw [hs] at h
          cases h
      · simp only [statFileAbsolute] at h
        rw [hs] at h
        dsimp only at h
        cases h
    · intro h
      simp only [statFileAbsolute]
      rw [h]
  · intro e hs hne
    rw [hstat]
    simp only [statFileAbsolute]
    rw [hs]
    cases e with
    | enoent => exact absurd rfl hne
    | pathEscape k b => rfl
    | errNotFound => rfl
    | enotdir => rfl
    | eisdir => rfl
    | eexist => rfl
    | einval => rfl
    | eperm => rfl
    | relError => rfl
    | readerError => rfl
    | mkdirError => rfl
    | createError => rfl
  · intro n hs
    rw [hstat]
    simp only [statFileAbsolute]
    rw [hs]
  · intro r fs' hput
    obtain ⟨p', hcp', hlk, hfs, hp'⟩ := putFile_ok_state fs cfg key r fs' hput
    have hpp : p' = p := by
      rw [hcp] at hcp'
      rw [Except.ok.injEq] at hcp'
      exact hcp'.symm
    rw [hpp] at hlk hp'
    simp only [statFile]
    rw [hcp]
    dsimp only
    simp only [statFileAbsolute, osStat]
    rw [if_neg hp']
    rw [show absSegs fs' p = absSegs fs p from by rw [hfs]; rfl]
    rw [hlk]
    rfl

theorem c10_statFile_witness :
    (statFile fsA cfgA (gs "f.txt") = .error .errNotFound ↔
      osStat fsA (gs "/data/f.txt") = .error .enoent)
    ∧ (∀ e, osStat fsA (gs "/data/f.txt") = .error e → e ≠ .enoent →
        statFile fsA cfgA (gs "f.txt") = .error e)
    ∧ (∀ n, osStat fsA (gs "/data/f.txt") = .ok n →
        statFile fsA cfgA (gs "f.txt") = .ok { size := nodeSize n, name := goBase (gs "/data/f.txt") })
    ∧ (∀ r fs', putFile fsA cfgA (gs "f.txt") r = (fs', .ok ()) →
        statFile fs' cfgA (gs "f.txt") =
          .ok { size := r.bytes.length, name := goBase (gs "/data/f.txt") }) :=
  c10_statFile fsA cfgA (gs "f.txt") (gs "/data/f.txt") rfl

theorem batchFold (basePath : GoStr) : ∀ (keys : List GoStr) (fs : Fs)
    (fl : List (GoStr × StorageError)) (n : Nat),
    keys.foldl (batchStep basePath) (fs, fl, n) =
      ((batchSpecRun basePath fs keys).1,
       fl ++ (batchSpecRun basePath fs keys).2.2,
       n + (batchSpecRun basePath fs keys).2.1)
  | [], fs, fl, n => by simp [batchSpecRun]
  | k :: ks, fs, fl, n => by
    rw [List.foldl_cons]
    show List.foldl (batchStep basePath) (batchStep basePath (fs, fl, n) k) ks = _
    simp only [batchSpecRun, batchStep]
    rcases hcp : containedPath basePath k with e | p
    · dsimp only
      rw [batchFold basePath ks fs (fl ++ [(k, e)]) n]
      simp
    · dsimp only
      rcases hrm : removeAllFs fs p with ⟨fs1, res⟩
      rcases res with e | u
      · dsimp only
        rw [batchFold basePath ks fs1 (fl ++ [(k, e)]) n]
        simp
      · dsimp only
        rw [batchFold basePath ks fs1 fl (n + 1)]
        simp only [Prod.mk.injEq, true_and]
        omega

theorem batchSpecRun_sub (basePath : GoStr) : ∀ (keys : List GoStr) (fs : Fs),
    List.Sublist ((batchSpecRun basePath fs keys).2.2.map Prod.fst) keys
  | [], fs => by simp [batchSpecRun]
  | k :: ks, fs => by
    simp only [batchSpecRun]
    rcases hcp : containedPath basePath k with e | p
    · dsimp only
      rw [List.map_cons]
      exact List.Sublist.cons₂ k (batchSpecRun_sub basePath ks fs)
    · dsimp only
      rcases hrm : removeAllFs fs p with ⟨fs1, res⟩
      rcases res with e | u
      · dsimp only
        rw [List.map_cons]
        exact List.Sublist.cons₂ k (batchSpecRun_sub basePath ks fs1)
      · dsimp only
        exact List.Sublist.cons k (batchSpecRun_sub basePath ks fs1)

theorem deleteKeysBatchInternal_eq (fs : Fs) (basePath : GoStr) (keys : List GoStr) :
    deleteKeysBatchInternal fs basePath keys =
      ((batchSpecRun basePath fs keys).1,
       if (batchSpecRun basePath fs keys).2.2 = [] then none
       else some { deleted := (batchSpecRun basePath fs keys).2.1,
                   failures := (batchSpecRun basePath fs keys).2.2 }) := by
  simp only [deleteKeysBatchInternal]
  rw [batchFold basePath keys fs [] 0]
  simp only [List.nil_append, Nat.zero_add]
  split
  · rfl
  · rfl

/-- C4: batch delete attempts every key in input order, continuing past
individual failures — it behaves exactly like the reference run
batchSpecRun, which records both path-resolution and OS-level delete
failures as (key, cause) pairs and goes on to the next key — returns
success exactly when zero failures occurred and otherwise a single report
with the ordered failure list (whose keys form an in-order subsequence of
the input); e.g. for keys [f.txt, ../evil, sub] where ../evil escapes the
base, f.txt and sub are deleted and the report lists only ../evil. -/
theorem c4_batch_delete (fs : Fs) (basePath : GoStr) (keys : List GoStr) :
    (deleteKeysBatchInternal fs basePath keys =
      ((batchSpecRun basePath fs keys).1,
       if (batchSpecRun basePath fs keys).2.2 = [] then none
       else some { deleted := (batchSpecRun basePath fs keys).2.1,
                   failures := (batchSpecRun basePath fs keys).2.2 }))
    ∧ List.Sublist ((batchSpecRun basePath fs keys).2.2.map Prod.fst) keys
    ∧ ((deleteKeysBatchInternal fsA (gs "/data") [gs "f.txt", gs "../evil", gs "sub"]).2 =
        some { deleted := 2,
               failures := [(gs "../evil", .pathEscape (gs "../evil") (gs "/data"))] })
    ∧ (statFile (deleteKeysBatchInternal fsA (gs "/data")
          [gs "f.txt", gs "../evil", gs "sub"]).1 cfgA (gs "f.txt") = .error .errNotFound)
    ∧ (statFile (deleteKeysBatchInternal fsA (gs "/data")
          [gs "f.txt", gs "../evil", gs "sub"]).1 cfgA (gs "sub") = .error .errNotFound) :=
  ⟨deleteKeysBatchInternal_eq fs basePath keys, batchSpecRun_sub basePath keys fs,
    by decide, by decide, by decide⟩

theorem batchSpecRun_empty_base (fs : Fs) : ∀ keys : List GoStr,
    (batchSpecRun [] fs keys).1 = fs ∧
    (batchSpecRun [] fs keys).2.2.length = keys.length
  | [] => by simp [batchSpecRun]
  | k :: ks => by
    simp only [batchSpecRun]
    rcases hcp : containedPath [] k with e | p
    · dsimp only
      have ih := batchSpecRun_empty_base fs ks
      exact ⟨ih.1, by simp [ih.2]⟩
    · have hp := containedPath_empty k hcp
      subst hp
      dsimp only
      rw [show removeAllFs fs dotSeg = (fs, .error .einval) from rfl]
      dsimp only
      have ih := batchSpecRun_empty_base fs ks
      exact ⟨ih.1, by simp [ih.2]⟩

/-- C5 counterexample: with an empty objectDiskPath, CopyObject is not
unavailable — it still performs the copy, placing the destination at the
cleaned destination key relative to the process working directory (here
the hardlink lands at /out while objectDiskPath is empty). -/
theorem c5_counterexample :
    ({ path := gs "/data", objectDiskPath := [] } : LocalConfig).objectDiskPath = [] ∧
    (copyObject fsA { path := gs "/data", objectDiskPath := [] } 3 (gs "f.txt")
        (gs "out")).2 = .ok 3 ∧
    getFileReaderAbsolute
      (copyObject fsA { path := gs "/data", objectDiskPath := [] } 3 (gs "f.txt")
        (gs "out")).1 (gs "/out") = .ok [1, 2, 3] := by
  exact ⟨rfl, by decide, by decide⟩

/-- C5 (amended): when objectDiskPath is empty, the object-disk delete
fails for every key without mutating the filesystem (the key either fails
the guard with PathEscape, or resolves to "." whose removal is refused with
EINVAL), and the object-disk batch delete deletes nothing and reports
failure for every non-empty key list; CopyObject, however, performs no
availability check and still carries out the copy against the plain join
of the empty base and the destination key, as the counterexample shows. -/
theorem c5_objectDisk_unavailable (fs : Fs) (cfg : LocalConfig) (key : GoStr)
    (keys : List GoStr) (hodp : cfg.objectDiskPath = []) :
    ((deleteFileFromObjectDiskBackup fs cfg key).1 = fs
      ∧ ∀ u, (deleteFileFromObjectDiskBackup fs cfg key).2 ≠ .ok u)
    ∧ ((deleteKeysFromObjectDiskBackupBatch fs cfg keys).1 = fs
      ∧ (keys ≠ [] → (deleteKeysFromObjectDiskBackupBatch fs cfg keys).2 ≠ none)) := by
  constructor
  · simp only [deleteFileFromObjectDiskBackup, hodp]
    rcases hcp : containedPath [] key with e | p
    · dsimp only
      exact ⟨rfl, by intro u h; cases h⟩
    · have hp := containedPath_empty key hcp
      subst hp
      dsimp only
      rw [show removeAllFs fs dotSeg = (fs, .error .einval) from rfl]
      exact ⟨rfl, by intro u h; cases h⟩
  · rcases keys with _ | ⟨k, ks⟩
    · exact ⟨rfl, fun h => absurd rfl h⟩
    · simp only [deleteKeysFromObjectDiskBackupBatch, hodp]
      rw [deleteKeysBatchInternal_eq fs [] (k :: ks)]
      have hrun := batchSpecRun_empty_base fs (k :: ks)
      constructor
      · exact hrun.1
      · intro _
        rw [if_neg (by
          intro hcon
          rw [hcon] at hrun
          simp at hrun)]
        simp

theorem c5_objectDisk_unavailable_witness :
    ((deleteFileFromObjectDiskBackup fsA { path := gs "/data", objectDiskPath := [] }
        (gs "k")).1 = fsA
      ∧ ∀ u, (deleteFileFromObjectDiskBackup fsA { path := gs "/data", objectDiskPath := [] }
        (gs "k")).2 ≠ .ok u)
    ∧ ((deleteKeysFromObjectDiskBackupBatch fsA { path := gs "/data", objectDiskPath := [] }
        [gs "k"]).1 = fsA
      ∧ ([gs "k"] ≠ ([] : List GoStr) →
        (deleteKeysFromObjectDiskBackupBatch fsA { path := gs "/data", objectDiskPath := [] }
          [gs "k"]).2 ≠ none)) :=
  c5_objectDisk_unavailable fsA { path := gs "/data", objectDiskPath := [] } (gs "k")
    [gs "k"] rfl

/-- C2 counterexample: for base "/" the cleaned join of "x" is "/x", a
strict descendant of "/", yet containedPath rejects it (the string check
compares against the degenerate separator-doubled base "//"). -/
theorem c2_counterexample :
    containedPath (gs "/") (gs "x") = .error (.pathEscape (gs "x") (gs "/")) ∧
    goClean (goJoin (gs "/") (gs "x")) = gs "/x" ∧
    specStrictDesc (goClean (gs "/")) (goClean (goJoin (gs "/") (gs "x"))) = true := by
  exact ⟨by decide, by decide, by decide⟩

/-- C2 (amended): for every base whose cleaned form is neither "." nor "/",
containedPath returns the cleaned join of base and key exactly when that
cleaned join equals the cleaned base or is a strict descendant of it, and
any failure is the PathEscape error naming key and base; for non-empty base
and key the join is Clean(base ++ "/" ++ key) — always relative to base,
never to the filesystem root.  (For the excluded bases cleaning to "." or
"/", the guard accepts only exact equality and wrongly rejects strict
descendants, as the counterexample shows.) -/
theorem c2_containedPath (base key : GoStr)
    (hdot : goClean base ≠ dotSeg) (hslash : goClean base ≠ ['/']) :
    (containedPath base key = .ok (goClean (goJoin base key)) ↔
      (goClean (goJoin base key) = goClean base ∨
        specStrictDesc (goClean base) (goClean (goJoin base key)) = true))
    ∧ (∀ e, containedPath base key = .error e → e = .pathEscape key base)
    ∧ (base ≠ [] → key ≠ [] → goJoin base key = goClean (base ++ '/' :: key)) := by
  refine ⟨containedPath_ok_iff base key hdot hslash,
    fun e he => containedPath_err base key he, ?_⟩
  intro hb hk
  simp only [goJoin]
  rw [if_neg (fun hc => hb hc.1), if_neg hb, if_neg hk]

theorem c2_containedPath_witness :
    ((containedPath (gs "/data") (gs "a/b") =
        .ok (goClean (goJoin (gs "/data") (gs "a/b"))) ↔
      (goClean (goJoin (gs "/data") (gs "a/b")) = goClean (gs "/data") ∨
        specStrictDesc (goClean (gs "/data"))
          (goClean (goJoin (gs "/data") (gs "a/b"))) = true))
    ∧ (∀ e, containedPath (gs "/data") (gs "a/b") = .error e →
        e = .pathEscape (gs "a/b") (gs "/data"))
    ∧ (gs "/data" ≠ [] → gs "a/b" ≠ [] →
        goJoin (gs "/data") (gs "a/b") = goClean (gs "/data" ++ '/' :: gs "a/b"))) :=
  c2_containedPath (gs "/data") (gs "a/b") (by decide) (by decide)

/-- C1 counterexample: the key-based Walk does not fail with PathEscape on
an escaping key — with base /data, the remote path "../etc" resolves
outside the base (the guard rejects it), yet Walk succeeds and enumerates
the outside directory /etc. -/
theorem c1_counterexample :
    containedPath cfgA.path (gs "../etc") =
      .error (.pathEscape (gs "../etc") cfgA.path) ∧
    walk fsA cfgA (gs "../etc") false = .ok [{ size := 2, name := gs "passwd" }] := by
  exact ⟨by decide, by decide⟩

/-- C1 (amended): for every key whose cleaned join with the configured base
is neither the cleaned base nor a strict descendant of it (in particular
every `../` key escaping the base), the four key-based single-file
operations — StatFile, GetFileReader, PutFile, DeleteFile — fail with the
PathEscape error before touching the filesystem and leave the filesystem
state unchanged; the key-based Walk, however, performs no containment
check: it always enumerates under the plain path.Join of base and key (and
so never fails with PathEscape, as the counterexample shows). -/
theorem c1_guarded_ops (fs : Fs) (cfg : LocalConfig) (key : GoStr) (r : GoReader)
    (recursive : Bool)
    (hne : goClean (goJoin cfg.path key) ≠ goClean cfg.path)
    (hnd : specStrictDesc (goClean cfg.path) (goClean (goJoin cfg.path key)) = false) :
    statFile fs cfg key = .error (.pathEscape key cfg.path)
    ∧ getFileReader fs cfg key = .error (.pathEscape key cfg.path)
    ∧ putFile fs cfg key r = (fs, .error (.pathEscape key cfg.path))
    ∧ deleteFile fs cfg key = (fs, .error (.pathEscape key cfg.path))
    ∧ walk fs cfg key recursive = walkAbsolute fs (goJoin cfg.path key) recursive := by
  have hcp := containedPath_outside cfg.path key hne hnd
  refine ⟨?_, ?_, ?_, ?_, rfl⟩
  · simp only [statFile]
    rw [hcp]
  · simp only [getFileReader]
    rw [hcp]
  · simp only [putFile]
    rw [hcp]
  · simp only [deleteFile]
    rw [hcp]

theorem c1_guarded_ops_witness :
    statFile fsA cfgA (gs "../etc/passwd") =
      .error (.pathEscape (gs "../etc/passwd") cfgA.path)
    ∧ getFileReader fsA cfgA (gs "../etc/passwd") =
      .error (.pathEscape (gs "../etc/passwd") cfgA.path)
    ∧ putFile fsA cfgA (gs "../etc/passwd") { bytes := [1], fails := false } =
      (fsA, .error (.pathEscape (gs "../etc/passwd") cfgA.path))
    ∧ deleteFile fsA cfgA (gs "../etc/passwd") =
      (fsA, .error (.pathEscape (gs "../etc/passwd") cfgA.path))
    ∧ walk fsA cfgA (gs "../etc/passwd") true =
      walkAbsolute fsA (goJoin cfgA.path (gs "../etc/passwd")) true :=
  c1_guarded_ops fsA cfgA (gs "../etc/passwd") { bytes := [1], fails := false } true
    (by decide) (by decide)

/-- C6: for every CopyObject call whose destination parent directory was
ensured (MkdirAll succeeded): if the hardlink succeeds the returned byte
count is the caller-supplied srcSize (no re-stat); if the hardlink fails
for any reason, that failure is not surfaced — the call behaves exactly as
the fallback streamed copy, which, when the source opens as a regular file
and the destination can be created, returns the actual number of bytes
transferred; only the fallback's own failures are surfaced. -/
theorem c6_copyObject (fs : Fs) (cfg : LocalConfig) (srcSize : Nat)
    (srcKey dstKey : GoStr) (root1 : Node)
    (hmk : mkdirAllNode (absSegs fs (goDir (goJoin cfg.objectDiskPath dstKey)))
      fs.root = some root1) :
    (∀ fs2, osLink { fs with root := root1 } (goJoin cfg.path srcKey)
        (goJoin cfg.objectDiskPath dstKey) = .ok fs2 →
      copyObject fs cfg srcSize srcKey dstKey = (fs2, .ok srcSize))
    ∧ (∀ e, osLink { fs with root := root1 } (goJoin cfg.path srcKey)
        (goJoin cfg.objectDiskPath dstKey) = .error e →
      copyObject fs cfg srcSize srcKey dstKey =
        copyFallback { fs with root := root1 } (goJoin cfg.path srcKey)
          (goJoin cfg.objectDiskPath dstKey))
    ∧ (∀ (fs1 : Fs) (srcPath dstPath : GoStr) (content : List Nat) (root2 : Node),
        osOpen fs1 srcPath = .ok (.file content) →
        createWriteNode (absSegs fs1 dstPath) [] fs1.root = some root2 →
        ∃ root3, copyFallback fs1 srcPath dstPath =
          ({ fs1 with root := root3 }, .ok content.length)) := by
  refine ⟨?_, ?_, ?_⟩
  · intro fs2 hlink
    simp only [copyObject]
    rw [hmk]
    dsimp only
    rw [hlink]
  · intro e hlink
    simp only [copyObject]
    rw [hmk]
    dsimp only
    rw [hlink]
    dsimp only
    simp only [copyFallback]
  · intro fs1 srcPath dstPath content root2 hopen hcw
    simp only [copyFallback]
    rw [hopen]
    dsimp only
    rw [hcw]
    dsimp only
    have hlk := lookup_createWrite _ _ _ _ hcw
    have hne := createWrite_ne_nil hcw
    obtain ⟨root3, hcw2⟩ := create_overwrite (absSegs fs1 dstPath) root2 [] content hlk hne
    rw [show absSegs { fs1 with root := root2 } dstPath = absSegs fs1 dstPath from rfl,
      hcw2]
    exact ⟨root3, rfl⟩

theorem c6_copyObject_witness :
    (∀ fs2, osLink fsA1 (goJoin cfgA.path (gs "f.txt"))
        (goJoin cfgA.objectDiskPath (gs "cp/f")) = .ok fs2 →
      copyObject fsA cfgA 3 (gs "f.txt") (gs "cp/f") = (fs2, .ok 3))
    ∧ (∀ e, osLink fsA1 (goJoin cfgA.path (gs "f.txt"))
        (goJoin cfgA.objectDiskPath (gs "cp/f")) = .error e →
      copyObject fsA cfgA 3 (gs "f.txt") (gs "cp/f") =
        copyFallback fsA1 (goJoin cfgA.path (gs "f.txt"))
          (goJoin cfgA.objectDiskPath (gs "cp/f")))
    ∧ (∀ (fs1 : Fs) (srcPath dstPath : GoStr) (content : List Nat) (root2 : Node),
        osOpen fs1 srcPath = .ok (.file content) →
        createWriteNode (absSegs fs1 dstPath) [] fs1.root = some root2 →
        ∃ root3, copyFallback fs1 srcPath dstPath =
          ({ fs1 with root := root3 }, .ok content.length)) :=
  c6_copyObject fsA cfgA 3 (gs "f.txt") (gs "cp/f") root1A rfl

/-- C7: CopyObject never consults the containment guard — its result is
never a PathEscape error — and keys with `..` segments resolve outside the
configured trees: srcKey "../etc/passwd" (rejected by the guard for the
primary base) is read from /etc/passwd outside /data, and dstKey
"../stolen" (rejected by the guard for the object-disk base) is written to
/stolen outside /odp, with the copy reported successful. -/
theorem c7_copyObject_unguarded :
    (∀ (fs : Fs) (cfg : LocalConfig) (srcSize : Nat) (srcKey dstKey k b : GoStr),
      (copyObject fs cfg srcSize srcKey dstKey).2 ≠ .error (.pathEscape k b))
    ∧ containedPath cfgA.path (gs "../etc/passwd") =
        .error (.pathEscape (gs "../etc/passwd") cfgA.path)
    ∧ containedPath cfgA.objectDiskPath (gs "../stolen") =
        .error (.pathEscape (gs "../stolen") cfgA.objectDiskPath)
    ∧ (copyObject fsA cfgA 2 (gs "../etc/passwd") (gs "../stolen")).2 = .ok 2
    ∧ getFileReaderAbsolute
        (copyObject fsA cfgA 2 (gs "../etc/passwd") (gs "../stolen")).1
        (gs "/stolen") = .ok [9, 9] := by
  refine ⟨?_, by decide, by decide, by decide, by decide⟩
  intro fs cfg srcSize srcKey dstKey k b
  simp only [copyObject]
  rcases hmk : mkdirAllNode (absSegs fs (goDir (goJoin cfg.objectDiskPath dstKey)))
      fs.root with _ | root1
  · dsimp only
    simp
  · dsimp only
    rcases hlink : osLink { fs with root := root1 } (goJoin cfg.path srcKey)
        (goJoin cfg.objectDiskPath dstKey) with e | fs2
    · dsimp only
      rcases hop : osOpen { fs with root := root1 } (goJoin cfg.path srcKey) with e' | n
      · dsimp only
        rcases osStat_err _ _ hop with he | he <;> subst he <;> simp
      · dsimp only
        rcases hcw : createWriteNode
            (absSegs { fs with root := root1 } (goJoin cfg.objectDiskPath dstKey)) []
            root1 with _ | root2
        · dsimp only
          simp
        · dsimp only
          rcases n with content | es
          · dsimp only
            rcases hcw2 : createWriteNode
                (absSegs { fs with root := root2 } (goJoin cfg.objectDiskPath dstKey))
                content root2 with _ | root3
            · simp
            · simp
          · dsimp only
            simp
    · dsimp only
      simp

/-
Lemmas for the recursive walk (C9).
-/

theorem wfName_clean {s : GoStr} (h : wfName s = true) :
    CleanSeg s ∧ s ≠ dotdotSeg := by
  simp only [wfName, Bool.and_eq_true, decide_eq_true_eq] at h
  exact ⟨⟨h.1.1.1, h.1.1.2, h.1.2⟩, h.2⟩

theorem Node.sz_pos : ∀ n : Node, 1 ≤ n.sz
  | .file _ => le_refl _
  | .dir es => by simp only [Node.sz]; omega

theorem findEntry_mem {es : List (GoStr × Node)} {nm : GoStr} {c : Node}
    (h : findEntry es nm = some c) : (nm, c) ∈ es := by
  simp only [findEntry, Option.map_eq_some'] at h
  obtain ⟨e, he, hc⟩ := h
  have hmem := List.mem_of_find?_eq_some he
  have hp := List.find?_some he
  simp only [decide_eq_true_eq] at hp
  have : e = (nm, c) := by
    rcases e with ⟨a, b⟩
    simp only at hp hc
    rw [hp, hc]
  rw [← this]
  exact hmem

theorem sz_of_mem : ∀ (es : List (GoStr × Node)) (nm : GoStr) (c : Node),
    (nm, c) ∈ es → c.sz ≤ szEntries es
  | [], _, _, h => by cases h
  | (a, b) :: es, nm, c, h => by
    rcases List.mem_cons.mp h with h | h
    · rw [Prod.mk.injEq] at h
      rw [← h.2]
      simp only [szEntries]
      omega
    · have := sz_of_mem es nm c h
      simp only [szEntries]
      omega

theorem findEntry_sz {es : List (GoStr × Node)} {nm : GoStr} {c : Node}
    (h : findEntry es nm = some c) : c.sz ≤ szEntries es :=
  sz_of_mem es nm c (findEntry_mem h)

theorem findEntry_cons (a : GoStr) (b : Node) (es : List (GoStr × Node)) (nm : GoStr) :
    findEntry ((a, b) :: es) nm = if a = nm then some b else findEntry es nm := by
  by_cases ha : a = nm
  · simp [findEntry, List.find?, ha]
  · simp [findEntry, List.find?, ha]

theorem wf_findEntry : ∀ (es : List (GoStr × Node)) (nm : GoStr) (c : Node),
    wfEntries es = true → findEntry es nm = some c →
    wfName nm = true ∧ wfTree c = true
  | [], _, _, _, hf => by simp [findEntry] at hf
  | (a, b) :: es, nm, c, hwf, hf => by
    simp only [wfEntries, Bool.and_eq_true] at hwf
    rw [findEntry_cons] at hf
    by_cases ha : a = nm
    · rw [if_pos ha] at hf
      rw [Option.some.injEq] at hf
      subst hf
      subst ha
      exact ⟨hwf.1.1, hwf.1.2⟩
    · rw [if_neg ha] at hf
      exact wf_findEntry es nm c hwf.2 hf

theorem cleanStack_splitRender (r : Bool) : ∀ ps : List GoStr,
    (∀ s ∈ ps, wfName s = true) →
    cleanStack r (splitSlash (render r ps)) [] = ps.reverse
  | [], _ => by
    cases r
    · simp [render, joinSegs, splitSlash, cleanStack, dotSeg]
    · simp [render, joinSegs, splitSlash, cleanStack, dotSeg]
  | s :: ss, h => by
    have hclean : ∀ u ∈ s :: ss, CleanSeg u ∧ u ≠ dotdotSeg :=
      fun u hu => wfName_clean (h u hu)
    have hnoslash : ∀ u ∈ s :: ss, '/' ∉ u := fun u hu => (hclean u hu).1.2.1
    cases r
    · rw [render_false_eq (s :: ss) (fun u hu => (hclean u hu).1) (by simp),
        splitSlash_joinSegs (s :: ss) hnoslash (by simp),
        cleanStack_normal false (s :: ss) [] hclean]
      simp
    · show cleanStack true (splitSlash ('/' :: joinSegs (s :: ss))) [] = _
      rw [show splitSlash ('/' :: joinSegs (s :: ss)) =
          [] :: splitSlash (joinSegs (s :: ss)) from by simp [splitSlash],
        splitSlash_joinSegs (s :: ss) hnoslash (by simp)]
      rw [show cleanStack true ([] :: s :: ss) [] = cleanStack true (s :: ss) [] from by
        simp [cleanStack]]
      rw [cleanStack_normal true (s :: ss) [] hclean]
      simp

theorem goClean_render_normal (r : Bool) (ps : List GoStr)
    (h : ∀ s ∈ ps, wfName s = true) :
    goClean (render r ps) = render r ps := by
  rcases hps : ps with _ | ⟨s, ss⟩
  · cases r
    · decide
    · decide
  · rw [← hps]
    have hne : render r ps ≠ [] := render_ne_nil r ps
    have hclean : ∀ u ∈ ps, CleanSeg u := fun u hu => (wfName_clean (h u hu)).1
    have hroot : (decide ((render r ps).head? = some '/')) = r := by
      have := isRooted_render r ps hclean
      rw [isRooted] at this
      exact this
    simp only [goClean, if_neg hne]
    rw [hroot, cleanStack_splitRender r ps h]
    simp

theorem goJoin_render (r : Bool) (ps : List GoStr) (nm : GoStr)
    (hps : ∀ s ∈ ps, wfName s = true) (hnm : wfName nm = true) :
    goJoin (render r ps) nm = render r (ps ++ [nm]) := by
  have hne : render r ps ≠ [] := render_ne_nil r ps
  obtain ⟨⟨hnm1, hnm2, hnm3⟩, hnm4⟩ := wfName_clean hnm
  have hclean : ∀ u ∈ ps, CleanSeg u := fun u hu => (wfName_clean (hps u hu)).1
  simp only [goJoin]
  rw [if_neg (fun hc => hne hc.1), if_neg hne, if_neg hnm1]
  have hp'ne : render r ps ++ '/' :: nm ≠ [] := by simp [hne]
  have hhead : (render r ps ++ '/' :: nm).head? = (render r ps).head? := by
    rcases hsh : render r ps with _ | ⟨c, rest⟩
    · exact absurd hsh hne
    · rfl
  have hroot : (decide ((render r ps ++ '/' :: nm).head? = some '/')) = r := by
    rw [hhead]
    have := isRooted_render r ps hclean
    rw [isRooted] at this
    exact this
  simp only [goClean, if_neg hp'ne]
  rw [hroot]
  rw [show splitSlash (render r ps ++ '/' :: nm) =
      splitSlash (render r ps) ++ [nm] from by
    rw [splitSlash_append_slash, splitSlash_noslash nm hnm2]]
  rw [cleanStack_append r (splitSlash (render r ps)) [nm] [],
    cleanStack_splitRender r ps hps,
    cleanStack_normal r [nm] ps.reverse
      (fun u hu => by
        simp only [List.mem_singleton] at hu
        subst hu
        exact ⟨⟨hnm1, hnm2, hnm3⟩, hnm4⟩)]
  simp

theorem dropCommon_self : ∀ ps rs : List GoStr, dropCommon ps (ps ++ rs) = ([], rs)
  | [], rs => by
    rcases rs with _ | ⟨t, ts⟩
    · rfl
    · rfl
  | p :: ps, rs => by
    show dropCommon (p :: ps) (p :: (ps ++ rs)) = ([], rs)
    simp only [dropCommon, if_pos rfl]
    exact dropCommon_self ps rs

theorem segsFilter_render (r : Bool) (ps : List GoStr) (hne : ps ≠ [])
    (h : ∀ s ∈ ps, CleanSeg s) :
    (splitSlash (render r ps)).filter (fun s => ¬ s = []) = ps := by
  have hnd : render r ps ≠ dotSeg := by
    cases r
    · rw [render_false_eq ps h hne]
      exact joinSegs_ne_dot ps h hne
    · intro hcon
      have := congrArg List.head? hcon
      simp [render, dotSeg] at this
  have := segsOfClean_render r ps h
  rw [segsOfClean, if_neg hnd] at this
  exact this

theorem filter_ne_eq (l : List GoStr) :
    l.filter (· ≠ []) = l.filter (fun s => ¬ s = []) := rfl

theorem goRel_render (r : Bool) (ps rs : List GoStr)
    (hps : ∀ s ∈ ps, wfName s = true) (hrs : ∀ s ∈ rs, wfName s = true) :
    goRel (render r ps) (render r (ps ++ rs)) =
      .ok (if rs = [] then dotSeg else joinSegs rs) := by
  have hcps : ∀ u ∈ ps, CleanSeg u := fun u hu => (wfName_clean (hps u hu)).1
  have hcall : ∀ u ∈ ps ++ rs, wfName u = true := by
    intro u hu
    rcases List.mem_append.mp hu with h | h
    · exact hps u h
    · exact hrs u h
  have hcpr : ∀ u ∈ ps ++ rs, CleanSeg u := fun u hu => (wfName_clean (hcall u hu)).1
  have hb := goClean_render_normal r ps hps
  have ht := goClean_render_normal r (ps ++ rs) hcall
  by_cases hrsnil : rs = []
  · subst hrsnil
    rw [if_pos rfl]
    simp only [goRel]
    rw [hb, ht, List.append_nil, if_pos rfl]
  · rw [if_neg hrsnil]
    have htb : render r (ps ++ rs) ≠ render r ps := by
      intro hcon
      have h1 := segsOfClean_render r (ps ++ rs) hcpr
      have h2 := segsOfClean_render r ps hcps
      rw [hcon, h2] at h1
      have := congrArg List.length h1
      simp only [List.length_append] at this
      have : rs.length = 0 := by omega
      exact hrsnil (List.length_eq_zero.mp this)
    have hfilter_t : (splitSlash (render r (ps ++ rs))).filter (· ≠ []) = ps ++ rs := by
      rw [filter_ne_eq]
      exact segsFilter_render r (ps ++ rs)
        (by intro hcon; exact hrsnil (List.append_eq_nil.mp hcon).2) hcpr
    have hQtrue : ∀ qs : List GoStr, qs ≠ [] → (∀ u ∈ qs, CleanSeg u) →
        ((render true qs).head? = some '/') := by
      intro qs _ _
      rfl
    have hQfalse : ∀ qs : List GoStr, (∀ u ∈ qs, CleanSeg u) →
        ¬ ((render false qs).head? = some '/') := by
      intro qs hq hcon
      have h2 := isRooted_render false qs hq
      rw [isRooted, hcon] at h2
      simp at h2
    simp only [goRel]
    rw [hb, ht, if_neg htb]
    rcases hpscase : ps with _ | ⟨s, ss⟩
    · subst hpscase
      simp only [List.nil_append] at ht htb hfilter_t hcpr hcall ⊢
      cases r
      · rw [if_pos (show render false ([] : List GoStr) = dotSeg from rfl)]
        rw [if_neg (show ¬ ((([] : GoStr).head? = some '/') ≠
            ((render false rs).head? = some '/')) from by
          intro hne
          apply hne
          apply propext
          constructor
          · intro hcon; simp at hcon
          · intro hcon; exact absurd hcon (hQfalse rs hcpr))]
        rw [show (splitSlash ([] : GoStr)).filter (· ≠ []) = [] from by
          simp [splitSlash]]
        rw [hfilter_t, show dropCommon [] rs = ([], rs) from by cases rs <;> rfl]
        rw [if_neg (by simp)]
        simp
      · rw [if_neg (show ¬ (render true ([] : List GoStr) = dotSeg) from by
          intro hcon
          have := congrArg List.head? hcon
          simp [render, joinSegs, dotSeg] at this)]
        rw [if_neg (show ¬ (((render true ([] : List GoStr)).head? = some '/') ≠
            ((render true rs).head? = some '/')) from by
          intro hne
          apply hne
          apply propext
          constructor
          · intro _; exact hQtrue rs hrsnil hcpr
          · intro _; rfl)]
        rw [show (splitSlash (render true ([] : List GoStr))).filter (· ≠ []) = [] from by
          simp [render, joinSegs, splitSlash]]
        rw [hfilter_t, show dropCommon [] rs = ([], rs) from by cases rs <;> rfl]
        rw [if_neg (by simp)]
        simp
    · rw [← hpscase]
      have hpsne : ps ≠ [] := by rw [hpscase]; simp
      have hprne : ps ++ rs ≠ [] := by
        intro hcon
        exact hpsne (List.append_eq_nil.mp hcon).1
      have hbnd : render r ps ≠ dotSeg := by
        cases r
        · rw [render_false_eq ps hcps hpsne]
          exact joinSegs_ne_dot ps hcps hpsne
        · intro hcon
          have := congrArg List.head? hcon
          simp [render, dotSeg] at this
      rw [if_neg hbnd]
      rw [if_neg (show ¬ (((render r ps).head? = some '/') ≠
          ((render r (ps ++ rs)).head? = some '/')) from by
        intro hne
        apply hne
        apply propext
        cases r
        · constructor
          · intro hcon; exact absurd hcon (hQfalse ps hcps)
          · intro hcon; exact absurd hcon (hQfalse (ps ++ rs) hcpr)
        · constructor
          · intro _; exact hQtrue (ps ++ rs) hprne hcpr
          · intro _; exact hQtrue ps hpsne hcps)]
      rw [show (splitSlash (render r ps)).filter (· ≠ []) = ps from by
        rw [filter_ne_eq]; exact segsFilter_render r ps hpsne hcps]
      rw [hfilter_t, dropCommon_self ps rs]
      rw [if_neg (by simp)]
      simp

theorem walkChildren_spec (w : Node → GoStr → Except StorageError (List LocalFile))
    (f : GoStr → Option Node) (fPath : GoStr) (g : GoStr → Node → List LocalFile) :
    ∀ (names : List GoStr) (sofar : List LocalFile),
    (∀ nm ∈ names, ∀ c, f nm = some c → w c (goJoin fPath nm) = .ok (g nm c)) →
    walkChildren w f fPath names sofar =
      .ok (sofar ++ names.flatMap (fun nm =>
        match f nm with | none => [] | some c => g nm c))
  | [], sofar, _ => by simp [walkChildren]
  | nm :: rest, sofar, h => by
    simp only [walkChildren, List.flatMap_cons]
    rcases hf : f nm with _ | c
    · dsimp only
      rw [walkChildren_spec w f fPath g rest sofar
        (fun u hu => h u (List.mem_cons_of_mem _ hu))]
      simp
    · dsimp only
      rw [h nm (List.mem_cons_self _ _) c hf]
      dsimp only
      rw [walkChildren_spec w f fPath g rest (sofar ++ g nm c)
        (fun u hu => h u (List.mem_cons_of_mem _ hu))]
      simp

theorem dfs_stable : ∀ (f1 : Nat) (n : Node) (f2 : Nat), n.sz ≤ f1 → n.sz ≤ f2 →
    dfsEntriesF f1 n = dfsEntriesF f2 n
  | 0, n, _, h1, _ => absurd (Nat.le_trans (Node.sz_pos n) h1) (by simp)
  | _+1, .file c, f2, _, h2 => by
    rcases f2 with _ | g2
    · exact absurd (Nat.le_trans (Node.sz_pos _) h2) (by simp)
    · rfl
  | f1+1, .dir es, f2, h1, h2 => by
    rcases f2 with _ | g2
    · exact absurd (Nat.le_trans (Node.sz_pos _) h2) (by simp)
    · simp only [dfsEntriesF]
      congr 1
      funext nm
      rcases hf : findEntry es nm with _ | c
      · rfl
      · have hsz := findEntry_sz hf
        have hs1 : c.sz ≤ f1 := by
          simp only [Node.sz] at h1; omega
        have hs2 : c.sz ≤ g2 := by
          simp only [Node.sz] at h2; omega
        dsimp only
        rw [dfs_stable f1 c g2 hs1 hs2]

theorem dfs_wf : ∀ (fuel : Nat) (n : Node), wfTree n = true →
    ∀ e ∈ dfsEntriesF fuel n, e.1 ≠ [] ∧ ∀ s ∈ e.1, wfName s = true
  | 0, _, _, e, he => by simp [dfsEntriesF] at he
  | _+1, .file _, _, e, he => by simp [dfsEntriesF] at he
  | fuel+1, .dir es, hwf, e, he => by
    simp only [dfsEntriesF, List.mem_flatMap] at he
    obtain ⟨nm, _, he2⟩ := he
    rcases hf : findEntry es nm with _ | c
    · rw [hf] at he2
      cases he2
    · rw [hf] at he2
      have hwfc := wf_findEntry es nm c hwf hf
      rcases List.mem_cons.mp he2 with h | h
      · subst h
        refine ⟨by simp, ?_⟩
        intro s hs
        simp only [List.mem_singleton] at hs
        subst hs
        exact hwfc.1
      · simp only [List.mem_map] at h
        obtain ⟨e', he', heq⟩ := h
        have ih := dfs_wf fuel c hwfc.2 e' he'
        rw [← heq]
        refine ⟨by simp, ?_⟩
        intro s hs
        rcases List.mem_cons.mp hs with h | h
        · subst h; exact hwfc.1
        · exact ih.2 s h

theorem walkRec_spec : ∀ (fuel : Nat) (n : Node) (r : Bool) (ps rs : List GoStr),
    n.sz ≤ fuel → wfTree n = true →
    (∀ s ∈ ps, wfName s = true) → (∀ s ∈ rs, wfName s = true) →
    walkRecF fuel (render r ps) (render r (ps ++ rs)) n =
      .ok ((if rs = [] then [] else [{ size := nodeSize n, name := joinSegs rs }]) ++
        (dfsEntriesF fuel n).map (fun e =>
          { size := nodeSize e.2, name := joinSegs (rs ++ e.1) }))
  | 0, n, _, _, _, hsz, _, _, _ =>
    absurd (Nat.le_trans (Node.sz_pos n) hsz) (by simp)
  | fuel+1, n, r, ps, rs, hsz, hwf, hps, hrs => by
    have hcrs : ∀ u ∈ rs, CleanSeg u := fun u hu => (wfName_clean (hrs u hu)).1
    simp only [walkRecF]
    rw [goRel_render r ps rs hps hrs]
    dsimp only
    have hhere : (if (if rs = [] then dotSeg else joinSegs rs) = dotSeg
          then ([] : List LocalFile)
          else [{ size := nodeSize n, name := if rs = [] then dotSeg else joinSegs rs }]) =
        (if rs = [] then []
          else [{ size := nodeSize n, name := joinSegs rs }]) := by
      by_cases hrsnil : rs = []
      · subst hrsnil
        simp
      · simp only [if_neg hrsnil, if_neg (joinSegs_ne_dot rs hcrs hrsnil)]
    rw [hhere]
    rcases n with c | es
    · simp [dfsEntriesF]
    · dsimp only
      have hwfe : wfEntries es = true := hwf
      have hall : ∀ s ∈ ps ++ rs, wfName s = true := by
        intro s hs
        rcases List.mem_append.mp hs with h | h
        · exact hps s h
        · exact hrs s h
      have hchild : ∀ nm ∈ sortNames (es.map Prod.fst), ∀ c, findEntry es nm = some c →
          (fun c p => walkRecF fuel (render r ps) p c) c
            (goJoin (render r (ps ++ rs)) nm) =
          .ok ({ size := nodeSize c, name := joinSegs (rs ++ [nm]) } ::
            (dfsEntriesF fuel c).map (fun e =>
              { size := nodeSize e.2, name := joinSegs (rs ++ [nm] ++ e.1) })) := by
        intro nm _ c hf
        have hwfc := wf_findEntry es nm c hwfe hf
        have hcsz : c.sz ≤ fuel := by
          have := findEntry_sz hf
          simp only [Node.sz] at hsz
          omega
        have hrsnm : ∀ s ∈ rs ++ [nm], wfName s = true := by
          intro s hs
          rcases List.mem_append.mp hs with h | h
          · exact hrs s h
          · simp only [List.mem_singleton] at h
            subst h
            exact hwfc.1
        dsimp only
        rw [goJoin_render r (ps ++ rs) nm hall hwfc.1, List.append_assoc]
        rw [walkRec_spec fuel c r ps (rs ++ [nm]) hcsz hwfc.2 hps hrsnm]
        rw [if_neg (by simp)]
        rfl
      rw [walkChildren_spec (fun c p => walkRecF fuel (render r ps) p c) (findEntry es)
        (render r (ps ++ rs))
        (fun nm c => { size := nodeSize c, name := joinSegs (rs ++ [nm]) } ::
          (dfsEntriesF fuel c).map (fun e =>
            { size := nodeSize e.2, name := joinSegs (rs ++ [nm] ++ e.1) }))
        (sortNames (es.map Prod.fst)) _ hchild]
      simp only [dfsEntriesF, List.map_flatMap]
      congr 2
      congr 1
      funext nm
      rcases hf : findEntry es nm with _ | c
      · rfl
      · dsimp only
        simp only [List.map_cons, List.map_map]
        congr 1
        congr 1
        funext e
        show ({ size := nodeSize e.2, name := joinSegs (rs ++ [nm] ++ e.1) } : LocalFile) =
          { size := nodeSize e.2, name := joinSegs (rs ++ (nm :: e.1)) }
        rw [show rs ++ (nm :: e.1) = rs ++ [nm] ++ e.1 from by simp]

/-- C9 counterexample: the claim says recursive enumeration yields one
entry per file in the subtree; but the walk also yields entries for
subdirectories — under /data (two files, one subdirectory) it yields three
entries, one of which, "sub", names a directory. -/
theorem c9_counterexample :
    walkAbsolute fsA (gs "/data") true =
      .ok [{ size := 3, name := gs "f.txt" }, { size := 0, name := gs "sub" },
           { size := 1, name := gs "sub/g" }] ∧
    lookupNode [gs "data", gs "sub"] fsA.root = .found (.dir [(gs "g", .file [4])]) :=
  ⟨by decide, rfl⟩

/-- C9 (amended): for every existing prefix (given in cleaned form, with
ordinary elements) resolving to a well-formed node, recursive enumeration
yields exactly one entry per strict descendant of the prefix — files and
directories alike — in sorted depth-first order, named by its path relative
to the prefix with forward-slash-joined elements; no entry is named "." and
the synthetic root entry is filtered out (the root contributes no entry). -/
theorem c9_walk_recursive (fs : Fs) (r : Bool) (ps : List GoStr) (n : Node)
    (hps : ∀ s ∈ ps, wfName s = true) (hwf : wfTree n = true)
    (hstat : osStat fs (render r ps) = .ok n) :
    walkAbsolute fs (render r ps) true =
      .ok ((dfsEntries n).map (fun e => { size := nodeSize e.2, name := joinSegs e.1 }))
    ∧ ∀ e ∈ dfsEntries n, e.1 ≠ [] ∧ joinSegs e.1 ≠ dotSeg := by
  constructor
  · simp only [walkAbsolute, if_pos rfl]
    rw [hstat]
    dsimp only
    have hspec := walkRec_spec n.sz n r ps [] (le_refl _) hwf hps (by simp)
    rw [List.append_nil] at hspec
    rw [hspec]
    rw [if_pos rfl]
    simp only [List.nil_append, dfsEntries]
    rw [if_pos trivial]
  · intro e he
    have hw := dfs_wf n.sz n hwf e he
    refine ⟨hw.1, ?_⟩
    exact joinSegs_ne_dot e.1 (fun s hs => (wfName_clean (hw.2 s hs)).1) hw.1

theorem c9_walk_recursive_witness :
    (walkAbsolute fsA (render true [gs "data"]) true =
      .ok ((dfsEntries dataNode).map (fun e =>
        { size := nodeSize e.2, name := joinSegs e.1 }))
    ∧ ∀ e ∈ dfsEntries dataNode, e.1 ≠ [] ∧ joinSegs e.1 ≠ dotSeg) :=
  c9_walk_recursive fsA true [gs "data"] dataNode (by decide) (by decide) rfl
